import Mathlib

/-!
The report merger and the metrics recalculator of cobertura-merge.

A shallow embedding of `main.go`: the data model (`Coverage`, `Package`,
`Class`, `Method`, `Line`, `Metrics`), the merge pass
(`mergeCoverageReports` and the functions it calls) and the recalculation
pass (`recalculateMetrics`).

Modelling decisions.

* Slices are lists.  Go `int` is 64 bits wide (the program is built for a
  64-bit target) and its addition wraps around in two's complement.  The
  `int` fields (`Number`, `Hits`, `Complexity`, `LinesCovered`, ...) are
  `Int` here, and every `+=` on them is followed by `wrapInt`, which brings
  the result back into the range from -2^63 to 2^63 - 1.  That a value read
  from a document lies in that range is the predicate `IsInt64`.
* The `float64` counters of `recalculateMetrics` only ever hold line counts
  (they start at 0 and grow by 1 or by another counter), which `float64`
  represents exactly below 2^53; they are natural numbers here.  A
  `float64` rate is either a value read from an input document, kept as an
  uninterpreted bit pattern, or the quotient of two counters, kept as the
  pair of its operands (`F64.quot covered valid`), so that `0 / 0` stays
  visible as `F64.quot 0 0`.
* The merge functions work through pointers.  `findPackageByName`,
  `findClassByName` and `findMethodByName` return the address of the range
  variable, that is, of a *copy* of the element found.  A copy has its own
  slice headers, but these headers point to the same backing arrays as the
  element copied.  Hence, of everything a callee does to such a copy, exactly
  the writes to cells that already existed (`existingLine.Hits += ...`)
  reach the structure the copy was taken from; an `append` only changes the
  header of the copy.  Each merge function below returns the callee's view
  of the copy after the call, and the caller keeps `sharedCells` of it: the
  cells the original slice shares with the copy.  A `*Line` kept in
  `lineMap` is modelled by the index of the cell it points to.
* The accumulator and the incoming report are separate values (in `main`
  every incoming report is freshly parsed), so they share no storage.
-/

namespace CoberturaMerge

/-! ## Data model (`main.go`, lines 9-54) -/

/-- A `float64`: a value read from a document (its bit pattern, never
inspected), or the quotient `covered / valid` of two line counters. -/
inductive F64 where
  | bits (pattern : Nat)
  | quot (covered valid : Nat)
deriving DecidableEq

structure Metrics where
  LineRate : F64
  BranchRate : F64
  Complexity : Int
deriving DecidableEq

structure Line where
  Number : Int
  Hits : Int
deriving DecidableEq

structure Method extends Metrics where
  Name : String
  Signature : String
  Lines : List Line
deriving DecidableEq

structure Class extends Metrics where
  Name : String
  Filename : String
  Methods : List Method
  Lines : List Line
deriving DecidableEq

structure Package extends Metrics where
  Name : String
  Classes : List Class
deriving DecidableEq

structure Source where
  Path : String
deriving DecidableEq

structure Coverage extends Metrics where
  Sources : List Source
  Packages : List Package
  LinesCovered : Int
  LinesValid : Int
  BranchesCovered : Int
  BranchesValid : Int
deriving DecidableEq

/-- The zero value of `Metrics`. -/
def Metrics.zero : Metrics := { LineRate := F64.bits 0, BranchRate := F64.bits 0, Complexity := 0 }

/-- The accumulator `main` starts from: `&Coverage{}`. -/
def Coverage.empty : Coverage :=
  { toMetrics := Metrics.zero, Sources := [], Packages := [],
    LinesCovered := 0, LinesValid := 0, BranchesCovered := 0, BranchesValid := 0 }

/-! ## Machine integers -/

/-- The value a Go `int` holds after an addition whose exact result is `x`:
`x` brought into the range from -2^63 to 2^63 - 1 by a multiple of 2^64. -/
def wrapInt (x : Int) : Int :=
  (x + 9223372036854775808) % 18446744073709551616 - 9223372036854775808

/-- The integers a Go `int` can hold. -/
def IsInt64 (x : Int) : Prop := -9223372036854775808 ≤ x ∧ x < 9223372036854775808

instance (x : Int) : Decidable (IsInt64 x) := by
  unfold IsInt64; infer_instance

/-! ## Pointers to copies -/

/-- The cells a slice shares with a copy of its header that a callee has
worked on: the callee may have grown its copy, the original keeps its
length and sees the cells as the callee left them. -/
def sharedCells {α : Type} (original grown : List α) : List α :=
  grown.take original.length

/-- Put `v` in the place of the first element that satisfies `p`: the cell a
lookup by key took its copy from. -/
def storeFirst {α : Type} (p : α → Bool) (v : α) : List α → List α
  | [] => []
  | a :: as => if p a then v :: as else a :: storeFirst p v as

/-! ## The merge pass (`main.go`, lines 109-249) -/

def findSourceByPath (coverage : Coverage) (sourcePath : String) : Option Source :=
  coverage.Sources.find? (fun source => source.Path == sourcePath)

def findPackageByName (coverage : Coverage) (packageName : String) : Option Package :=
  coverage.Packages.find? (fun pkg => pkg.Name == packageName)

def findClassByName (packageData : Package) (className : String) : Option Class :=
  packageData.Classes.find? (fun cls => cls.Name == className)

def findMethodByName (cls : Class) (methodName : String) : Option Method :=
  cls.Methods.find? (fun method => method.Name == methodName)

/-- The `map[int]*Line` of the line merge: line number to the index of the
cell the stored pointer addresses. -/
abbrev LineMap := Int → Option Nat

def LineMap.empty : LineMap := fun _ => none

def LineMap.set (lineMap : LineMap) (number : Int) (i : Nat) : LineMap :=
  fun k => if k = number then some i else lineMap k

/-- The first loop of `mergeMethodLines` / `mergeClassLines`:
`lineMap[lines[i].Number] = &lines[i]` for `i` in range. -/
def indexLines (lines : List Line) : LineMap :=
  (List.range lines.length).foldl
    (fun lineMap i =>
      match lines[i]? with
      | some line => lineMap.set line.Number i
      | none => lineMap)
    LineMap.empty

/-- The statement `existingLine.Hits += hits` for the cell at index `i`. -/
def addHitsAt (lines : List Line) (i : Nat) (hits : Int) : List Line :=
  lines.modify (fun l => { l with Hits := wrapInt (l.Hits + hits) }) i

/-- One turn of the second loop of the line merge. -/
def mergeLineStep (st : List Line × LineMap) (line : Line) : List Line × LineMap :=
  match st.2 line.Number with
  | some i => (addHitsAt st.1 i line.Hits, st.2)
  | none => (st.1 ++ [line], st.2.set line.Number st.1.length)

/-- The body shared by `mergeMethodLines` and `mergeClassLines` (the two are
the same text up to the receiver type). -/
def mergeLines (existing current : List Line) : List Line :=
  (current.foldl mergeLineStep (existing, indexLines existing)).1

def mergeMethodLines (existingMethod currentMethod : Method) : Method :=
  { existingMethod with Lines := mergeLines existingMethod.Lines currentMethod.Lines }

def mergeClassLines (existingClass currentClass : Class) : Class :=
  { existingClass with Lines := mergeLines existingClass.Lines currentClass.Lines }

/-- What the method cell that `existingMethod` was copied from holds after
`mergeMethodLines(existingMethod, &currentMethod)`. -/
def methodCellAfter (existingMethod currentMethod : Method) : Method :=
  { existingMethod with
    Lines := sharedCells existingMethod.Lines (mergeMethodLines existingMethod currentMethod).Lines }

/-- One turn of the loop of `mergeMethods`. -/
def mergeMethodStep (existingClass : Class) (currentMethod : Method) : Class :=
  match findMethodByName existingClass currentMethod.Name with
  | none => { existingClass with Methods := existingClass.Methods ++ [currentMethod] }
  | some existingMethod =>
    { existingClass with
      Methods := storeFirst (fun method => method.Name == currentMethod.Name)
        (methodCellAfter existingMethod currentMethod) existingClass.Methods }

def mergeMethods (existingClass currentClass : Class) : Class :=
  currentClass.Methods.foldl mergeMethodStep existingClass

/-- What the class cell that `existingClass` was copied from holds after
`mergeMethods(existingClass, &currentClass)` followed by
`mergeClassLines(existingClass, &currentClass)`. -/
def classCellAfter (existingClass currentClass : Class) : Class :=
  let merged := mergeClassLines (mergeMethods existingClass currentClass) currentClass
  { existingClass with
    Methods := sharedCells existingClass.Methods merged.Methods
    Lines := sharedCells existingClass.Lines merged.Lines }

/-- One turn of the loop of `mergeClasses`. -/
def mergeClassStep (existingPackage : Package) (currentClass : Class) : Package :=
  match findClassByName existingPackage currentClass.Name with
  | none => { existingPackage with Classes := existingPackage.Classes ++ [currentClass] }
  | some existingClass =>
    { existingPackage with
      Classes := storeFirst (fun cls => cls.Name == currentClass.Name)
        (classCellAfter existingClass currentClass) existingPackage.Classes }

def mergeClasses (existingPackage currentPackage : Package) : Package :=
  currentPackage.Classes.foldl mergeClassStep existingPackage

/-- What the package cell that `existingPackage` was copied from holds after
`mergeClasses(existingPackage, &currentPackage)`. -/
def packageCellAfter (existingPackage currentPackage : Package) : Package :=
  { existingPackage with
    Classes := sharedCells existingPackage.Classes
      (mergeClasses existingPackage currentPackage).Classes }

/-- One turn of the first loop of `mergeCoverageReports`. -/
def mergeSourceStep (mergedCoverage : Coverage) (currentSource : Source) : Coverage :=
  match findSourceByPath mergedCoverage currentSource.Path with
  | none => { mergedCoverage with Sources := mergedCoverage.Sources ++ [currentSource] }
  | some _ => mergedCoverage

/-- One turn of the second loop of `mergeCoverageReports`. -/
def mergePackageStep (mergedCoverage : Coverage) (currentPackage : Package) : Coverage :=
  match findPackageByName mergedCoverage currentPackage.Name with
  | none => { mergedCoverage with Packages := mergedCoverage.Packages ++ [currentPackage] }
  | some existingPackage =>
    { mergedCoverage with
      Packages := storeFirst (fun pkg => pkg.Name == currentPackage.Name)
        (packageCellAfter existingPackage currentPackage) mergedCoverage.Packages }

def mergeCoverageReports (mergedCoverage currentCoverage : Coverage) : Coverage :=
  currentCoverage.Packages.foldl mergePackageStep
    (currentCoverage.Sources.foldl mergeSourceStep mergedCoverage)

/-! ## The recalculation pass (`main.go`, lines 251-299) -/

def methodValidLines (method : Method) : Nat :=
  method.Lines.foldl (fun n _ => n + 1) 0

def methodCoveredLines (method : Method) : Nat :=
  method.Lines.foldl (fun n line => if line.Hits > 0 then n + 1 else n) 0

def classValidLines (cls : Class) : Nat :=
  cls.Methods.foldl (fun n method => n + methodValidLines method) 0

def classCoveredLines (cls : Class) : Nat :=
  cls.Methods.foldl (fun n method => n + methodCoveredLines method) 0

def classComplexity (cls : Class) : Int :=
  cls.Methods.foldl (fun k method => wrapInt (k + method.Complexity)) 0

def packageValidLines (pkg : Package) : Nat :=
  pkg.Classes.foldl (fun n cls => n + classValidLines cls) 0

def packageCoveredLines (pkg : Package) : Nat :=
  pkg.Classes.foldl (fun n cls => n + classCoveredLines cls) 0

def packageComplexity (pkg : Package) : Int :=
  pkg.Classes.foldl (fun k cls => wrapInt (k + classComplexity cls)) 0

def coverageValidLines (cov : Coverage) : Nat :=
  cov.Packages.foldl (fun n pkg => n + packageValidLines pkg) 0

def coverageCoveredLines (cov : Coverage) : Nat :=
  cov.Packages.foldl (fun n pkg => n + packageCoveredLines pkg) 0

/-- The method after the innermost loop body (`main.go`, lines 265-277). -/
def recalcMethod (method : Method) : Method :=
  { method with LineRate := F64.quot (methodCoveredLines method) (methodValidLines method) }

/-- The class after the class loop body (`main.go`, lines 260-284). -/
def recalcClass (cls : Class) : Class :=
  { cls with
    Methods := cls.Methods.map recalcMethod
    LineRate := F64.quot (classCoveredLines cls) (classValidLines cls)
    Complexity := classComplexity cls }

/-- The package after the package loop body (`main.go`, lines 255-291). -/
def recalcPackage (pkg : Package) : Package :=
  { pkg with
    Classes := pkg.Classes.map recalcClass
    Complexity := packageComplexity pkg
    LineRate := F64.quot (packageCoveredLines pkg) (packageValidLines pkg) }

def recalculateMetrics (cov : Coverage) : Coverage :=
  { cov with
    Packages := cov.Packages.map recalcPackage
    LinesCovered := (coverageCoveredLines cov : Int)
    LinesValid := (coverageValidLines cov : Int)
    LineRate := F64.quot (coverageCoveredLines cov) (coverageValidLines cov) }

/-! ## Vocabulary of the properties -/

/-- The shape every merge loop has: look the incoming element up by key; when
absent append it, when present store `cell existing incoming` in the cell the
copy was taken from. -/
def keyedStep {α κ : Type} [BEq κ] (key : α → κ) (cell : α → α → α)
    (loc : List α) (x : α) : List α :=
  match loc.find? (fun e => key e == key x) with
  | none => loc ++ [x]
  | some e => storeFirst (fun e => key e == key x) (cell e x) loc

/-- An existing element after a merge with a list of incoming elements that
has at most one element of each key. -/
def mergedCell {α κ : Type} [BEq κ] (key : α → κ) (cell : α → α → α)
    (incoming : List α) (e : α) : α :=
  match incoming.find? (fun x => key x == key e) with
  | none => e
  | some x => cell e x

/-- The line `l` after `l.Hits += x.Hits`. -/
def Line.addHits (l x : Line) : Line := { l with Hits := wrapInt (l.Hits + x.Hits) }

/-- Line numbers are unique within the method. -/
def Method.UniqueKeys (M : Method) : Prop := (M.Lines.map Line.Number).Nodup

/-- Method names are unique within the class, line numbers within each method. -/
def Class.UniqueKeys (C : Class) : Prop :=
  (C.Methods.map Method.Name).Nodup ∧ ∀ M ∈ C.Methods, M.UniqueKeys

/-- Class names are unique within the package, and so on below. -/
def Package.UniqueKeys (P : Package) : Prop :=
  (P.Classes.map Class.Name).Nodup ∧ ∀ C ∈ P.Classes, C.UniqueKeys

/-- Unique keys at every level of the path package / class / method / line. -/
def Coverage.UniqueKeys (R : Coverage) : Prop :=
  (R.Packages.map Package.Name).Nodup ∧ ∀ P ∈ R.Packages, P.UniqueKeys

/-- The class-level line lists have unique line numbers too. -/
def Coverage.UniqueClassLines (R : Coverage) : Prop :=
  ∀ P ∈ R.Packages, ∀ C ∈ P.Classes, (C.Lines.map Line.Number).Nodup

instance (M : Method) : Decidable M.UniqueKeys := by
  unfold Method.UniqueKeys; infer_instance

instance (C : Class) : Decidable C.UniqueKeys := by
  unfold Class.UniqueKeys; infer_instance

instance (P : Package) : Decidable P.UniqueKeys := by
  unfold Package.UniqueKeys; infer_instance

instance (R : Coverage) : Decidable R.UniqueKeys := by
  unfold Coverage.UniqueKeys; infer_instance

instance (R : Coverage) : Decidable R.UniqueClassLines := by
  unfold Coverage.UniqueClassLines; infer_instance

/-- Every hit count of the line list is a value a Go `int` can hold. -/
def LinesInRange (lines : List Line) : Prop := ∀ l ∈ lines, IsInt64 l.Hits

def Class.HitsInRange (C : Class) : Prop := ∀ M ∈ C.Methods, LinesInRange M.Lines

def Package.HitsInRange (P : Package) : Prop := ∀ C ∈ P.Classes, C.HitsInRange

/-- Every hit count of a method line of the report is a value a Go `int` can
hold, as it is for a report read from a document. -/
def Coverage.HitsInRange (R : Coverage) : Prop := ∀ P ∈ R.Packages, P.HitsInRange

instance (lines : List Line) : Decidable (LinesInRange lines) := by
  unfold LinesInRange; infer_instance

instance (C : Class) : Decidable C.HitsInRange := by
  unfold Class.HitsInRange; infer_instance

instance (P : Package) : Decidable P.HitsInRange := by
  unfold Package.HitsInRange; infer_instance

instance (R : Coverage) : Decidable R.HitsInRange := by
  unfold Coverage.HitsInRange; infer_instance

/-- Hits of line `n` in a line list, 0 when the list has no such line. -/
def linesHits (lines : List Line) (n : Int) : Int :=
  match lines.find? (fun l => l.Number == n) with
  | some l => l.Hits
  | none => 0

/-- Hits of line `m / n` in a method list, 0 when absent. -/
def methodsHits (methods : List Method) (m : String) (n : Int) : Int :=
  match methods.find? (fun M => M.Name == m) with
  | some M => linesHits M.Lines n
  | none => 0

/-- Hits of line `c / m / n` in a class list, 0 when absent. -/
def classesHits (classes : List Class) (c m : String) (n : Int) : Int :=
  match classes.find? (fun C => C.Name == c) with
  | some C => methodsHits C.Methods m n
  | none => 0

/-- Hits of line `p / c / m / n` in a package list, 0 when absent. -/
def packagesHits (packages : List Package) (p c m : String) (n : Int) : Int :=
  match packages.find? (fun P => P.Name == p) with
  | some P => classesHits P.Classes c m n
  | none => 0

/-- Hits of the line `p / c / m / n` of a report, 0 when the report has no
such line. -/
def Coverage.hitsOrZero (R : Coverage) (p c m : String) (n : Int) : Int :=
  packagesHits R.Packages p c m n

/-- The line with its hit count doubled in 64-bit arithmetic. -/
def Line.double (l : Line) : Line := { l with Hits := wrapInt (2 * l.Hits) }

def Method.double (M : Method) : Method := { M with Lines := M.Lines.map Line.double }

def Class.double (C : Class) : Class :=
  { C with Methods := C.Methods.map Method.double, Lines := C.Lines.map Line.double }

/-- The package with the same entities in the same order and every hit count
doubled in 64-bit arithmetic. -/
def Package.double (P : Package) : Package := { P with Classes := P.Classes.map Class.double }

/-- Keep the first occurrence of every path. -/
def firstOccurrences : List Source → List Source
  | [] => []
  | s :: rest => s :: (firstOccurrences rest).filter (fun t => t.Path != s.Path)

/-- The sources a merge adds to `old`: in incoming order, the first occurrence
of each incoming path that no source of `old` has. -/
def newSources (old incoming : List Source) : List Source :=
  firstOccurrences (incoming.filter (fun s => decide (s.Path ∉ old.map Source.Path)))

/-- Number of line records over all methods of all classes of all packages. -/
def Coverage.lineRecords (R : Coverage) : Nat :=
  (R.Packages.map (fun P =>
    (P.Classes.map (fun C => (C.Methods.map (fun M => M.Lines.length)).sum)).sum)).sum

/-- Number of those line records whose hit count is greater than 0. -/
def Coverage.hitLineRecords (R : Coverage) : Nat :=
  (R.Packages.map (fun P =>
    (P.Classes.map (fun C =>
      (C.Methods.map (fun M => (M.Lines.filter (fun l => decide (l.Hits > 0))).length)).sum)).sum)).sum

/-- The class with the hit counts of its class-level lines blanked: what is
left is the class apart from those counts. -/
def Class.eraseClassHits (C : Class) : Class :=
  { C with Lines := C.Lines.map (fun l => { l with Hits := 0 }) }

def Package.eraseClassHits (P : Package) : Package :=
  { P with Classes := P.Classes.map Class.eraseClassHits }

/-- Every method of a report with its package, class and method name and its
lines. -/
def methodLines (R : Coverage) : List (String × String × String × List Line) :=
  R.Packages.flatMap (fun P => P.Classes.flatMap (fun C =>
    C.Methods.map (fun M => (P.Name, C.Name, M.Name, M.Lines))))

/-- The line map addresses exactly the cells of `lines`, each under its number. -/
def LineMap.Indexes (lineMap : LineMap) (lines : List Line) : Prop :=
  ∀ k i, lineMap k = some i ↔ (lines.map Line.Number)[i]? = some k

/-- Method names are unique within the class (nothing is asked of line numbers). -/
def Class.UniqueNames (C : Class) : Prop := (C.Methods.map Method.Name).Nodup

/-- Class names are unique within the package, method names within each class. -/
def Package.UniqueNames (P : Package) : Prop :=
  (P.Classes.map Class.Name).Nodup ∧ ∀ C ∈ P.Classes, C.UniqueNames

/-- Package, class and method names are unique within their owner. -/
def Coverage.UniqueNames (R : Coverage) : Prop :=
  (R.Packages.map Package.Name).Nodup ∧ ∀ P ∈ R.Packages, P.UniqueNames

instance (C : Class) : Decidable C.UniqueNames := by
  unfold Class.UniqueNames; infer_instance

instance (P : Package) : Decidable P.UniqueNames := by
  unfold Package.UniqueNames; infer_instance

instance (R : Coverage) : Decidable R.UniqueNames := by
  unfold Coverage.UniqueNames; infer_instance

/-- The class `p / c` of a report: first package named `p`, first class named
`c` in it, as the lookups of the merge find them. -/
def Coverage.lookupClass (R : Coverage) (p c : String) : Option Class :=
  (R.Packages.find? (fun P => P.Name == p)).bind
    (fun P => P.Classes.find? (fun C => C.Name == c))

/-- The method `p / c / m` of a report. -/
def Coverage.lookupMethod (R : Coverage) (p c m : String) : Option Method :=
  (R.lookupClass p c).bind (fun C => C.Methods.find? (fun M => M.Name == m))

/-- Sum of the hits of all the entries of a line list that carry number `n`. -/
def hitsSum (lines : List Line) (n : Int) : Int :=
  ((lines.filter (fun x => x.Number == n)).map Line.Hits).sum

/-- The line `l` after a line list has been merged onto it. -/
def Line.plusHits (incoming : List Line) (l : Line) : Line :=
  { l with Hits := wrapInt (l.Hits + hitsSum incoming l.Number) }

/-- The line without its hit count. -/
def Line.eraseHits (l : Line) : Line := { l with Hits := 0 }

def Method.eraseHits (M : Method) : Method := { M with Lines := M.Lines.map Line.eraseHits }

def Class.eraseHits (C : Class) : Class :=
  { C with Methods := C.Methods.map Method.eraseHits, Lines := C.Lines.map Line.eraseHits }

/-- The package without any hit count: names, filenames, signatures, metrics,
the lists of classes, methods and lines with their order, and the line
numbers are all kept. -/
def Package.eraseHits (P : Package) : Package :=
  { P with Classes := P.Classes.map Class.eraseHits }

def Method.eraseLineRate (M : Method) : Method := { M with LineRate := F64.bits 0 }

def Class.eraseLineRate (C : Class) : Class :=
  { C with LineRate := F64.bits 0, Methods := C.Methods.map Method.eraseLineRate }

def Package.eraseLineRate (P : Package) : Package :=
  { P with LineRate := F64.bits 0, Classes := P.Classes.map Class.eraseLineRate }

/-- The report without its line-rate fields (report, package, class and
method level) and without its lines-covered and lines-valid. -/
def Coverage.eraseLineRates (R : Coverage) : Coverage :=
  { R with
    LineRate := F64.bits 0
    LinesCovered := 0
    LinesValid := 0
    Packages := R.Packages.map Package.eraseLineRate }

def Class.eraseRecalculated (C : Class) : Class :=
  { C with
    LineRate := F64.bits 0
    Complexity := 0
    Methods := C.Methods.map Method.eraseLineRate }

def Package.eraseRecalculated (P : Package) : Package :=
  { P with
    LineRate := F64.bits 0
    Complexity := 0
    Classes := P.Classes.map Class.eraseRecalculated }

/-- The report without the line rates of all levels, the class and package
complexities, lines-covered and lines-valid; everything else is kept. -/
def Coverage.eraseRecalculated (R : Coverage) : Coverage :=
  { R with
    LineRate := F64.bits 0
    LinesCovered := 0
    LinesValid := 0
    Packages := R.Packages.map Package.eraseRecalculated }

def Class.eraseClassLines (C : Class) : Class := { C with Lines := [] }

def Package.eraseClassLines (P : Package) : Package :=
  { P with Classes := P.Classes.map Class.eraseClassLines }

/-- The report without the class-level line lists of its classes. -/
def Coverage.eraseClassLines (R : Coverage) : Coverage :=
  { R with Packages := R.Packages.map Package.eraseClassLines }

/-- Index of the last entry of a number list that equals `k`. -/
def lastIdx : List Int → Int → Option Nat
  | [], _ => none
  | a :: rest, k =>
    match lastIdx rest k with
    | some i => some (i + 1)
    | none => if a = k then some 0 else none

/-- The line list after `x.Hits` has been added to its last line that carries
the number of `x`; the list itself when no line carries it. -/
def addAtLast (x : Line) : List Line → List Line
  | [] => []
  | l :: rest =>
    if x.Number ∈ rest.map Line.Number then l :: addAtLast x rest
    else if l.Number = x.Number then l.addHits x :: rest
    else l :: rest

/-- One turn of the line merge told without the line map: the hits go to the
last line of that number, and a line of a new number is appended. -/
def mergeLineAtLast (lines : List Line) (x : Line) : List Line :=
  if x.Number ∈ lines.map Line.Number then addAtLast x lines else lines ++ [x]

/-- The existing lines after the entries of `incoming` have been added onto
them one after the other, each to the last line of its number. -/
def mergedOnto (incoming existing : List Line) : List Line :=
  incoming.foldl (fun ls x => addAtLast x ls) existing

/-- The classes named `c` in the packages named `p` of a report, in document
order. -/
def Coverage.classesAt (R : Coverage) (p c : String) : List Class :=
  (R.Packages.filter (fun P => P.Name == p)).flatMap
    (fun P => P.Classes.filter (fun C => C.Name == c))

/-- The methods named `m` in those classes, in document order. -/
def Coverage.methodsAt (R : Coverage) (p c m : String) : List Method :=
  (R.classesAt p c).flatMap (fun C => C.Methods.filter (fun M => M.Name == m))

/-- All line entries a report holds under the names `p / c / m`, in document
order. -/
def Coverage.linesAt (R : Coverage) (p c m : String) : List Line :=
  (R.methodsAt p c m).flatMap (fun M => M.Lines)

/-! ## Concrete reports -/

def mkMethod (name : String) (lines : List Line) : Method :=
  { toMetrics := Metrics.zero, Name := name, Signature := "", Lines := lines }

def mkClass (name : String) (methods : List Method) (lines : List Line) : Class :=
  { toMetrics := Metrics.zero, Name := name, Filename := "", Methods := methods, Lines := lines }

def mkPackage (name : String) (classes : List Class) : Package :=
  { toMetrics := Metrics.zero, Name := name, Classes := classes }

def mkReport (sources : List Source) (packages : List Package) : Coverage :=
  { Coverage.empty with Sources := sources, Packages := packages }

/-- Input 1 of the scenario: `p / C / m` with lines (1, hits 1), (2, hits 0). -/
def scenarioInput1 : Coverage :=
  mkReport [] [mkPackage "p" [mkClass "C" [mkMethod "m" [⟨1, 1⟩, ⟨2, 0⟩]] []]]

/-- Input 2 of the scenario: `p / C / m` with lines (1, hits 2), (3, hits 1). -/
def scenarioInput2 : Coverage :=
  mkReport [] [mkPackage "p" [mkClass "C" [mkMethod "m" [⟨1, 2⟩, ⟨3, 1⟩]] []]]

/-- An accumulator holding `p / C / m`. -/
def accPCM : Coverage :=
  mkReport [⟨"src"⟩] [mkPackage "p" [mkClass "C" [mkMethod "m" [⟨1, 1⟩]] [⟨1, 1⟩]]]

/-- An incoming report with a class `D` that package `p` of `accPCM` lacks. -/
def incNewClass : Coverage :=
  mkReport [⟨"src"⟩] [mkPackage "p" [mkClass "D" [mkMethod "k" [⟨7, 4⟩]] []]]

/-- An incoming report with a method `k` that class `p / C` of `accPCM` lacks. -/
def incNewMethod : Coverage :=
  mkReport [⟨"src"⟩] [mkPackage "p" [mkClass "C" [mkMethod "k" [⟨7, 4⟩]] []]]

/-- An incoming report with a line 2 that method `p / C / m` of `accPCM` lacks. -/
def incNewLine : Coverage :=
  mkReport [⟨"src"⟩] [mkPackage "p" [mkClass "C" [mkMethod "m" [⟨1, 5⟩, ⟨2, 4⟩]] []]]

/-- An incoming report whose packages `accPCM` lacks. -/
def incNewPackages : Coverage :=
  mkReport [⟨"lib"⟩, ⟨"src"⟩, ⟨"lib"⟩]
    [mkPackage "q" [mkClass "C" [mkMethod "m" [⟨1, 2⟩]] [⟨1, 2⟩]], mkPackage "r" []]

/-- Two reports with unique keys that share `p / C / m`; `reportB` has a line
2 that `reportA` lacks. -/
def reportA : Coverage :=
  mkReport [] [mkPackage "p" [mkClass "C" [mkMethod "m" [⟨1, 1⟩]] []]]

def reportB : Coverage :=
  mkReport [] [mkPackage "p" [mkClass "C" [mkMethod "m" [⟨1, 1⟩, ⟨2, 1⟩]] []]]

/-- An accumulator whose line `p / C / m / 1` holds the largest Go int. -/
def accMaxHits : Coverage :=
  mkReport [] [mkPackage "p" [mkClass "C" [mkMethod "m" [⟨1, 9223372036854775807⟩]] []]]

/-- An incoming report with one hit on line `p / C / m / 1`. -/
def incOneHit : Coverage :=
  mkReport [] [mkPackage "p" [mkClass "C" [mkMethod "m" [⟨1, 1⟩]] []]]

/-- An incoming report that carries line `p / C / m / 1` twice, one hit each. -/
def incTwoHits : Coverage :=
  mkReport [] [mkPackage "p" [mkClass "C" [mkMethod "m" [⟨1, 1⟩, ⟨1, 1⟩]] []]]

/-- A report whose line `p / C / m / 1` holds 2^62 hits. -/
def reportHalfRange : Coverage :=
  mkReport [] [mkPackage "p" [mkClass "C" [mkMethod "m" [⟨1, 4611686018427387904⟩]] []]]

/-- A document whose class `p / C` has two methods, of complexity
9223372036854775807 and 1. -/
def complexMaxDoc : Coverage :=
  mkReport []
    [mkPackage "p" [mkClass "C"
      [{ toMetrics := ⟨F64.bits 0, F64.bits 0, 9223372036854775807⟩, Name := "m",
         Signature := "", Lines := [⟨1, 1⟩] },
       { toMetrics := ⟨F64.bits 0, F64.bits 0, 1⟩, Name := "k",
         Signature := "", Lines := [⟨2, 1⟩] }] []]]

/-- Package `p` of `accPCM` after `incNewLine` has been merged in. -/
def mergedPCM : Package := mkPackage "p" [mkClass "C" [mkMethod "m" [⟨1, 6⟩]] [⟨1, 1⟩]]

/-- A document with one method of complexity 3. -/
def complexDoc : Coverage :=
  mkReport []
    [mkPackage "p" [mkClass "C"
      [{ toMetrics := ⟨F64.bits 0, F64.bits 0, 3⟩, Name := "m", Signature := "",
         Lines := [⟨1, 1⟩] }] []]]

/-- The report `accPCM` with other line rates and line totals written in. -/
def accPCMRates : Coverage :=
  { toMetrics := ⟨F64.bits 7, F64.bits 0, 0⟩, Sources := [⟨"src"⟩],
    Packages :=
      [{ toMetrics := ⟨F64.bits 8, F64.bits 0, 0⟩, Name := "p",
         Classes :=
           [{ toMetrics := ⟨F64.bits 9, F64.bits 0, 0⟩, Name := "C", Filename := "",
              Methods :=
                [{ toMetrics := ⟨F64.bits 10, F64.bits 0, 0⟩, Name := "m", Signature := "",
                   Lines := [⟨1, 1⟩] }],
              Lines := [⟨1, 1⟩] }] }],
    LinesCovered := 40, LinesValid := 50, BranchesCovered := 0, BranchesValid := 0 }

/-- The report `accPCM` with another class-level line list in class `p / C`. -/
def accPCMClassLines : Coverage :=
  mkReport [⟨"src"⟩] [mkPackage "p" [mkClass "C" [mkMethod "m" [⟨1, 1⟩]] [⟨4, 0⟩, ⟨5, 2⟩]]]

/-- An incoming report without packages. -/
def incSourcesOnly : Coverage := mkReport [⟨"lib"⟩] []

/-- An incoming report whose method `p / C / m` has another signature than the
one of `accPCM` and carries line 1 twice. -/
def incOverload : Coverage :=
  mkReport []
    [mkPackage "p" [mkClass "C"
      [{ toMetrics := Metrics.zero, Name := "m", Signature := "(I)V",
         Lines := [⟨1, 2⟩, ⟨1, 3⟩, ⟨9, 1⟩] }] []]]

/-- Method `p / C / m` of `accPCM`. -/
def methodM : Method := mkMethod "m" [⟨1, 1⟩]

/-- Class `p / C` of `accPCM`. -/
def classC : Class := mkClass "C" [methodM] [⟨1, 1⟩]

/-- Method `p / C / m` of `incOverload`. -/
def methodMOverload : Method :=
  { toMetrics := Metrics.zero, Name := "m", Signature := "(I)V",
    Lines := [⟨1, 2⟩, ⟨1, 3⟩, ⟨9, 1⟩] }

/-- An accumulator whose class `p / C` has two methods named `m`, told apart
by their signatures only. -/
def accOverloads : Coverage :=
  mkReport []
    [mkPackage "p" [mkClass "C"
      [{ toMetrics := Metrics.zero, Name := "m", Signature := "(I)V", Lines := [⟨1, 1⟩] },
       { toMetrics := Metrics.zero, Name := "m", Signature := "(S)V", Lines := [⟨1, 2⟩] }] []]]

/-- An incoming report with the same two methods, with 10 and 12 hits. -/
def incOverloads : Coverage :=
  mkReport []
    [mkPackage "p" [mkClass "C"
      [{ toMetrics := Metrics.zero, Name := "m", Signature := "(I)V", Lines := [⟨1, 10⟩] },
       { toMetrics := Metrics.zero, Name := "m", Signature := "(S)V", Lines := [⟨1, 12⟩] }] []]]

/-- The first method named `m` of class `p / C` of `accOverloads`. -/
def methodIV : Method :=
  { toMetrics := Metrics.zero, Name := "m", Signature := "(I)V", Lines := [⟨1, 1⟩] }

/-- Class `p / C` of `accOverloads`. -/
def classOverloads : Class :=
  mkClass "C"
    [methodIV,
     { toMetrics := Metrics.zero, Name := "m", Signature := "(S)V", Lines := [⟨1, 2⟩] }] []

/-! ## Wrap-around -/

theorem wrapInt_of_isInt64 (x : Int) (h : IsInt64 x) : wrapInt x = x := by
  unfold IsInt64 at h
  unfold wrapInt
  omega

theorem wrapInt_isInt64 (x : Int) : IsInt64 (wrapInt x) := by
  unfold IsInt64 wrapInt
  omega

theorem wrapInt_add_left (a b : Int) : wrapInt (wrapInt a + b) = wrapInt (a + b) := by
  unfold wrapInt
  omega

/-! ## Lists -/

theorem sharedCells_map_append {α : Type} (f : α → α) (l r : List α) :
    sharedCells l (l.map f ++ r) = l.map f := by
  unfold sharedCells
  exact List.take_left' (by simp)

theorem find_none_of_not_mem {α κ : Type} [BEq κ] [LawfulBEq κ] (key : α → κ) (k : κ) (l : List α) (h : k ∉ l.map key) :
    l.find? (fun e => key e == k) = none := by
  rw [List.find?_eq_none]
  intro e he hk
  exact h (List.mem_map.mpr ⟨e, he, by simpa using hk⟩)

theorem find_of_mem_nodup {α κ : Type} [BEq κ] [LawfulBEq κ] (key : α → κ) :
    ∀ (l : List α) (e : α), (l.map key).Nodup → e ∈ l →
      l.find? (fun a => key a == key e) = some e := by
  intro l
  induction l with
  | nil => intro e _ he; cases he
  | cons a as ih =>
    intro e hnd he
    rw [List.map_cons, List.nodup_cons] at hnd
    rcases List.mem_cons.mp he with rfl | hmem
    · simp [List.find?_cons]
    · have hne : key a ≠ key e := by
        intro hk
        exact hnd.1 (hk ▸ List.mem_map_of_mem key hmem)
      have hb : (key a == key e) = false := by simpa using hne
      rw [List.find?_cons, hb]
      exact ih e hnd.2 hmem

theorem storeFirst_eq_map {α κ : Type} [BEq κ] [LawfulBEq κ] (key : α → κ) (k : κ) (f : α → α) :
    ∀ (l : List α) (e : α), (l.map key).Nodup → e ∈ l → key e = k →
      storeFirst (fun a => key a == k) (f e) l
        = l.map (fun a => if key a == k then f a else a) := by
  intro l
  induction l with
  | nil => intro e _ he; cases he
  | cons a as ih =>
    intro e hnd he hk
    rw [List.map_cons, List.nodup_cons] at hnd
    rcases List.mem_cons.mp he with rfl | hmem
    · have hb : (key e == k) = true := by simpa using hk
      have hrest : as.map (fun a => if key a == k then f a else a) = as := by
        conv_rhs => rw [← List.map_id as]
        apply List.map_congr_left
        intro a ha
        have : key a ≠ k := by
          intro h
          exact hnd.1 (hk ▸ h ▸ List.mem_map_of_mem key ha)
        have hb2 : (key a == k) = false := by simpa using this
        simp [hb2]
      simp [storeFirst, hb, hrest]
    · have hne : key a ≠ k := by
        intro h
        exact hnd.1 (h ▸ hk ▸ List.mem_map_of_mem key hmem)
      have hb : (key a == k) = false := by simpa using hne
      simp only [storeFirst, hb, List.map_cons]
      rw [ih e hnd.2 hmem hk]
      simp

theorem keyedStep_foldl {α κ : Type} [BEq κ] [LawfulBEq κ] (key : α → κ) (cell : α → α → α)
    (hcell : ∀ e x, key (cell e x) = key e) :
    ∀ (inc loc : List α), (loc.map key).Nodup → (inc.map key).Nodup →
      inc.foldl (keyedStep key cell) loc
        = loc.map (mergedCell key cell inc)
          ++ inc.filter (fun x => decide (key x ∉ loc.map key)) := by
  intro inc
  induction inc with
  | nil =>
    intro loc _ _
    have hid : mergedCell key cell [] = id := by funext e; rfl
    simp [hid]
  | cons x inc ih =>
    intro loc hloc hinc
    rw [List.map_cons, List.nodup_cons] at hinc
    obtain ⟨hx, hinc⟩ := hinc
    have hfx : inc.find? (fun y => key y == key x) = none :=
      find_none_of_not_mem key (key x) inc hx
    rw [List.foldl_cons]
    by_cases hmem : key x ∈ loc.map key
    · obtain ⟨e, he, hek⟩ := List.mem_map.mp hmem
      have hfind : loc.find? (fun a => key a == key x) = some e := by
        rw [← hek]; exact find_of_mem_nodup key loc e hloc he
      have hstep : keyedStep key cell loc x
          = loc.map (fun a => if key a == key x then cell a x else a) := by
        unfold keyedStep
        rw [hfind]
        exact storeFirst_eq_map key (key x) (fun a => cell a x) loc e hloc he hek
      have hkeys : (keyedStep key cell loc x).map key = loc.map key := by
        rw [hstep, List.map_map]
        apply List.map_congr_left
        intro a _
        simp only [Function.comp]
        split <;> simp [hcell]
      rw [ih _ (hkeys ▸ hloc) hinc, hkeys, hstep, List.map_map]
      congr 1
      · apply List.map_congr_left
        intro a _
        simp only [Function.comp, mergedCell, List.find?_cons]
        by_cases hka : key a = key x
        · have h1 : (key a == key x) = true := by simpa using hka
          have h2 : (key x == key a) = true := by simpa using hka.symm
          have h3 : inc.find? (fun y => key y == key (cell a x)) = none := by
            rw [hcell, hka]; exact hfx
          simp [h1, h2, h3]
        · have h1 : (key a == key x) = false := by simpa using hka
          have h2 : (key x == key a) = false := by simpa using (Ne.symm hka)
          simp [h1, h2]
      · simp [List.filter_cons, hmem]
    · have hfind : loc.find? (fun a => key a == key x) = none :=
        find_none_of_not_mem key (key x) loc hmem
      have hstep : keyedStep key cell loc x = loc ++ [x] := by
        unfold keyedStep; rw [hfind]
      have hnd : ((loc ++ [x]).map key).Nodup := by
        rw [List.map_append, List.nodup_append]
        refine ⟨hloc, by simp, ?_⟩
        intro k hk1 hk2
        simp at hk2
        exact hmem (hk2 ▸ hk1)
      rw [hstep, ih _ hnd hinc, List.map_append, List.append_assoc]
      congr 1
      · apply List.map_congr_left
        intro a ha
        have hka : key x ≠ key a := by
          intro h; exact hmem (h ▸ List.mem_map_of_mem key ha)
        have h2 : (key x == key a) = false := by simpa using hka
        simp [mergedCell, List.find?_cons, h2]
      · have h1 : mergedCell key cell inc x = x := by
          simp [mergedCell, hfx]
        have h2 : inc.filter (fun y => decide (key y ∉ (loc ++ [x]).map key))
            = inc.filter (fun y => decide (key y ∉ loc.map key)) := by
          apply List.filter_congr
          intro y hy
          have : key y ≠ key x := by
            intro h; exact hx (h ▸ List.mem_map_of_mem key hy)
          simp [this]
        rw [List.map_cons, List.map_nil, h1, h2]
        simp [List.filter_cons, hmem]


/-! ## The line map -/

theorem nodup_index_eq {β : Type} {l : List β} (h : l.Nodup) {i j : Nat} {b : β}
    (hi : l[i]? = some b) (hj : l[j]? = some b) : i = j := by
  obtain ⟨hi1, hi2⟩ := List.getElem?_eq_some.mp hi
  obtain ⟨hj1, hj2⟩ := List.getElem?_eq_some.mp hj
  exact (List.Nodup.getElem_inj_iff h).mp (hi2.trans hj2.symm)

theorem indexLines_upto (lines : List Line) (hnd : (lines.map Line.Number).Nodup) :
    ∀ n, n ≤ lines.length → ∀ k i,
      (List.range n).foldl
        (fun (lineMap : LineMap) i =>
          match lines[i]? with
          | some line => lineMap.set line.Number i
          | none => lineMap)
        LineMap.empty k = some i
      ↔ i < n ∧ (lines.map Line.Number)[i]? = some k := by
  intro n
  induction n with
  | zero => intro _ k i; simp [LineMap.empty]
  | succ n ih =>
    intro hn k i
    have hlt : n < lines.length := hn
    have hget : lines[n]? = some lines[n] := List.getElem?_eq_getElem hlt
    have hnum : (lines.map Line.Number)[n]? = some lines[n].Number := by
      rw [List.getElem?_map, hget]; rfl
    rw [List.range_succ, List.foldl_append, List.foldl_cons, List.foldl_nil, hget]
    simp only [LineMap.set]
    by_cases hk : k = lines[n].Number
    · subst hk
      simp only [if_true]
      constructor
      · intro h
        have : n = i := by simpa using h
        subst this
        exact ⟨Nat.lt_succ_self _, hnum⟩
      · rintro ⟨_, h⟩
        rw [nodup_index_eq hnd h hnum]
    · simp only [hk, if_false]
      rw [ih (Nat.le_of_lt hlt) k i]
      constructor
      · rintro ⟨h1, h2⟩
        exact ⟨Nat.lt_succ_of_lt h1, h2⟩
      · rintro ⟨h1, h2⟩
        refine ⟨?_, h2⟩
        rcases Nat.lt_succ_iff_lt_or_eq.mp h1 with h | h
        · exact h
        · subst h
          rw [hnum] at h2
          exact absurd (Option.some.inj h2).symm hk

theorem indexLines_indexes (lines : List Line) (hnd : (lines.map Line.Number).Nodup) :
    (indexLines lines).Indexes lines := by
  intro k i
  unfold indexLines
  rw [indexLines_upto lines hnd lines.length (Nat.le_refl _) k i]
  constructor
  · exact fun h => h.2
  · intro h
    refine ⟨?_, h⟩
    have := (List.getElem?_eq_some.mp h).1
    simpa using this

theorem storeFirst_eq_modify {α κ : Type} [BEq κ] [LawfulBEq κ] (key : α → κ) (k : κ)
    (f : α → α) :
    ∀ (l : List α) (i : Nat) (e : α), (l.map key).Nodup → l[i]? = some e → key e = k →
      storeFirst (fun a => key a == k) (f e) l = l.modify f i := by
  intro l
  induction l with
  | nil => intro i e _ h; simp at h
  | cons a as ih =>
    intro i e hnd hi hk
    rw [List.map_cons, List.nodup_cons] at hnd
    cases i with
    | zero =>
      have : a = e := by simpa using hi
      subst this
      have hb : (key a == k) = true := by simpa using hk
      simp [storeFirst, hb]
    | succ i =>
      have hi2 : as[i]? = some e := by simpa using hi
      have hmem : e ∈ as := List.mem_iff_getElem?.mpr ⟨i, hi2⟩
      have hne : key a ≠ k := by
        intro h
        exact hnd.1 (h ▸ hk ▸ List.mem_map_of_mem key hmem)
      have hb : (key a == k) = false := by simpa using hne
      simp only [storeFirst, hb]
      rw [ih i e hnd.2 hi2 hk]
      simp

theorem mergeLineStep_eq (lines : List Line) (lineMap : LineMap) (x : Line)
    (hnd : (lines.map Line.Number).Nodup) (hidx : lineMap.Indexes lines) :
    (mergeLineStep (lines, lineMap) x).1 = keyedStep Line.Number Line.addHits lines x
    ∧ ((mergeLineStep (lines, lineMap) x).1.map Line.Number).Nodup
    ∧ (mergeLineStep (lines, lineMap) x).2.Indexes (mergeLineStep (lines, lineMap) x).1 := by
  cases hm : lineMap x.Number with
  | none =>
    have hres : mergeLineStep (lines, lineMap) x
        = (lines ++ [x], lineMap.set x.Number lines.length) := by
      simp only [mergeLineStep, hm]
    rw [hres]
    have hnot : x.Number ∉ lines.map Line.Number := by
      intro h
      obtain ⟨i, hi⟩ := List.mem_iff_getElem?.mp h
      have := (hidx x.Number i).mpr hi
      rw [hm] at this
      cases this
    have hfind := find_none_of_not_mem Line.Number x.Number lines hnot
    refine ⟨?_, ?_, ?_⟩
    · simp only [keyedStep, hfind]
    · show ((lines ++ [x]).map Line.Number).Nodup
      rw [List.map_append, List.nodup_append]
      refine ⟨hnd, by simp, ?_⟩
      intro k hk1 hk2
      simp at hk2
      exact hnot (hk2 ▸ hk1)
    · intro k i
      show LineMap.set lineMap x.Number lines.length k = some i
        ↔ ((lines ++ [x]).map Line.Number)[i]? = some k
      simp only [LineMap.set, List.map_append, List.map_cons, List.map_nil]
      have hlen : (lines.map Line.Number).length = lines.length := by simp
      by_cases hk : k = x.Number
      · subst hk
        simp only [if_true]
        constructor
        · intro h
          have : lines.length = i := by simpa using h
          subst this
          rw [List.getElem?_append_right (by simp)]
          simp
        · intro h
          rcases Nat.lt_or_ge i lines.length with hlt | hge
          · rw [List.getElem?_append_left (by simpa using hlt)] at h
            exact absurd (List.mem_iff_getElem?.mpr ⟨i, h⟩) hnot
          · rw [List.getElem?_append_right (by simpa using hge)] at h
            rw [hlen] at h
            rcases Nat.eq_zero_or_pos (i - lines.length) with h0 | hpos
            · have : i = lines.length := by omega
              rw [this]
            · have : ([x.Number] : List Int)[i - lines.length]? = none := by
                apply List.getElem?_eq_none
                show 1 ≤ i - lines.length
                exact hpos
              rw [this] at h
              cases h
      · simp only [hk, if_false]
        rw [hidx k i]
        rcases Nat.lt_or_ge i lines.length with hlt | hge
        · rw [List.getElem?_append_left (by simpa using hlt)]
        · rw [List.getElem?_append_right (by simpa using hge), hlen]
          have h1 : (lines.map Line.Number)[i]? = none :=
            List.getElem?_eq_none (by simpa using hge)
          rw [h1]
          constructor
          · intro h; cases h
          · intro h
            rcases Nat.eq_zero_or_pos (i - lines.length) with h0 | hpos
            · rw [h0] at h
              have : x.Number = k := by simpa using h
              exact absurd this.symm hk
            · have : ([x.Number] : List Int)[i - lines.length]? = none := by
                apply List.getElem?_eq_none
                show 1 ≤ i - lines.length
                exact hpos
              rw [this] at h
              cases h
  | some i =>
    have hres : mergeLineStep (lines, lineMap) x = (addHitsAt lines i x.Hits, lineMap) := by
      simp only [mergeLineStep, hm]
    rw [hres]
    have hi := (hidx x.Number i).mp hm
    rw [List.getElem?_map] at hi
    obtain ⟨l, hl, hln⟩ := Option.map_eq_some'.mp hi
    have hmem : l ∈ lines := List.mem_iff_getElem?.mpr ⟨i, hl⟩
    have hfind : lines.find? (fun a => a.Number == x.Number) = some l := by
      rw [← hln]; exact find_of_mem_nodup Line.Number lines l hnd hmem
    have hstep : addHitsAt lines i x.Hits = keyedStep Line.Number Line.addHits lines x := by
      simp only [keyedStep, hfind]
      exact (storeFirst_eq_modify Line.Number x.Number (fun a => Line.addHits a x)
        lines i l hnd hl hln).symm
    have hmap : (keyedStep Line.Number Line.addHits lines x).map Line.Number
        = lines.map Line.Number := by
      simp only [keyedStep, hfind]
      rw [storeFirst_eq_map Line.Number x.Number (fun a => Line.addHits a x)
        lines l hnd hmem hln, List.map_map]
      apply List.map_congr_left
      intro a _
      simp only [Function.comp]
      split <;> rfl
    refine ⟨hstep, ?_, ?_⟩
    · show ((addHitsAt lines i x.Hits).map Line.Number).Nodup
      rw [hstep, hmap]; exact hnd
    · intro k j
      show lineMap k = some j ↔ ((addHitsAt lines i x.Hits).map Line.Number)[j]? = some k
      rw [hstep, hmap]; exact hidx k j

theorem mergeLineStep_foldl (inc : List Line) :
    ∀ (lines : List Line) (lineMap : LineMap), (lines.map Line.Number).Nodup →
      lineMap.Indexes lines →
      (inc.foldl mergeLineStep (lines, lineMap)).1
        = inc.foldl (keyedStep Line.Number Line.addHits) lines := by
  induction inc with
  | nil => intro lines lineMap _ _; rfl
  | cons x inc ih =>
    intro lines lineMap hnd hidx
    obtain ⟨h1, h2, h3⟩ := mergeLineStep_eq lines lineMap x hnd hidx
    rw [List.foldl_cons, List.foldl_cons, ← h1]
    exact ih _ _ h2 h3

/-- With unique numbers among the existing lines, the line merge is the keyed
merge by line number. -/
theorem mergeLines_eq_keyed (existing current : List Line)
    (hnd : (existing.map Line.Number).Nodup) :
    mergeLines existing current
      = current.foldl (keyedStep Line.Number Line.addHits) existing := by
  unfold mergeLines
  exact mergeLineStep_foldl current existing _ hnd (indexLines_indexes existing hnd)

/-! ## The merge loops as keyed merges -/

theorem mergeLines_unique (existing current : List Line)
    (h1 : (existing.map Line.Number).Nodup) (h2 : (current.map Line.Number).Nodup) :
    mergeLines existing current
      = existing.map (mergedCell Line.Number Line.addHits current)
        ++ current.filter (fun x => decide (x.Number ∉ existing.map Line.Number)) := by
  rw [mergeLines_eq_keyed existing current h1]
  exact keyedStep_foldl Line.Number Line.addHits (fun _ _ => rfl) current existing h1 h2

theorem sharedCells_mergeLines (existing current : List Line)
    (h1 : (existing.map Line.Number).Nodup) (h2 : (current.map Line.Number).Nodup) :
    sharedCells existing (mergeLines existing current)
      = existing.map (mergedCell Line.Number Line.addHits current) := by
  rw [mergeLines_unique existing current h1 h2]
  exact sharedCells_map_append _ _ _

theorem methodCellAfter_unique (M N : Method) (hM : M.UniqueKeys) (hN : N.UniqueKeys) :
    methodCellAfter M N
      = { M with Lines := M.Lines.map (mergedCell Line.Number Line.addHits N.Lines) } := by
  unfold methodCellAfter mergeMethodLines
  simp only
  rw [sharedCells_mergeLines M.Lines N.Lines hM hN]

theorem mergeMethodStep_eq (C : Class) (x : Method) :
    mergeMethodStep C x
      = { C with Methods := keyedStep Method.Name methodCellAfter C.Methods x } := by
  unfold mergeMethodStep keyedStep findMethodByName
  cases C.Methods.find? (fun method => method.Name == x.Name) <;> rfl

theorem mergeMethods_eq (C D : Class) :
    mergeMethods C D
      = { C with Methods := D.Methods.foldl (keyedStep Method.Name methodCellAfter) C.Methods } := by
  unfold mergeMethods
  generalize D.Methods = inc
  induction inc generalizing C with
  | nil => rfl
  | cons x inc ih =>
    rw [List.foldl_cons, ih, mergeMethodStep_eq]
    rfl

theorem classCellAfter_eq (C D : Class) :
    classCellAfter C D
      = { C with
          Methods := sharedCells C.Methods
            (D.Methods.foldl (keyedStep Method.Name methodCellAfter) C.Methods)
          Lines := sharedCells C.Lines (mergeLines C.Lines D.Lines) } := by
  unfold classCellAfter mergeClassLines
  rw [mergeMethods_eq]

theorem classCellAfter_methods (C D : Class)
    (hC : (C.Methods.map Method.Name).Nodup) (hD : (D.Methods.map Method.Name).Nodup) :
    (classCellAfter C D).Methods
      = C.Methods.map (mergedCell Method.Name methodCellAfter D.Methods) := by
  rw [classCellAfter_eq]
  simp only
  rw [keyedStep_foldl Method.Name methodCellAfter (fun _ _ => rfl) D.Methods C.Methods hC hD]
  exact sharedCells_map_append _ _ _

theorem mergeClassStep_eq (P : Package) (x : Class) :
    mergeClassStep P x
      = { P with Classes := keyedStep Class.Name classCellAfter P.Classes x } := by
  unfold mergeClassStep keyedStep findClassByName
  cases P.Classes.find? (fun cls => cls.Name == x.Name) <;> rfl

theorem mergeClasses_eq (P Q : Package) :
    mergeClasses P Q
      = { P with Classes := Q.Classes.foldl (keyedStep Class.Name classCellAfter) P.Classes } := by
  unfold mergeClasses
  generalize Q.Classes = inc
  induction inc generalizing P with
  | nil => rfl
  | cons x inc ih =>
    rw [List.foldl_cons, ih, mergeClassStep_eq]
    rfl

theorem packageCellAfter_eq (P Q : Package) :
    packageCellAfter P Q
      = { P with
          Classes := sharedCells P.Classes
            (Q.Classes.foldl (keyedStep Class.Name classCellAfter) P.Classes) } := by
  unfold packageCellAfter
  rw [mergeClasses_eq]

theorem packageCellAfter_classes (P Q : Package)
    (hP : (P.Classes.map Class.Name).Nodup) (hQ : (Q.Classes.map Class.Name).Nodup) :
    (packageCellAfter P Q).Classes
      = P.Classes.map (mergedCell Class.Name classCellAfter Q.Classes) := by
  rw [packageCellAfter_eq]
  simp only
  rw [keyedStep_foldl Class.Name classCellAfter (fun _ _ => rfl) Q.Classes P.Classes hP hQ]
  exact sharedCells_map_append _ _ _

theorem mergePackageStep_eq (R : Coverage) (x : Package) :
    mergePackageStep R x
      = { R with Packages := keyedStep Package.Name packageCellAfter R.Packages x } := by
  unfold mergePackageStep keyedStep findPackageByName
  cases R.Packages.find? (fun pkg => pkg.Name == x.Name) <;> rfl

theorem mergePackageStep_foldl (inc : List Package) (R : Coverage) :
    inc.foldl mergePackageStep R
      = { R with Packages := inc.foldl (keyedStep Package.Name packageCellAfter) R.Packages } := by
  induction inc generalizing R with
  | nil => rfl
  | cons x inc ih =>
    rw [List.foldl_cons, ih, mergePackageStep_eq]
    rfl

theorem mergeSourceStep_packages (R : Coverage) (s : Source) :
    (mergeSourceStep R s).Packages = R.Packages := by
  unfold mergeSourceStep
  cases findSourceByPath R s.Path <;> rfl

theorem mergeSourceStep_foldl_packages (inc : List Source) (R : Coverage) :
    (inc.foldl mergeSourceStep R).Packages = R.Packages := by
  induction inc generalizing R with
  | nil => rfl
  | cons s inc ih => rw [List.foldl_cons, ih, mergeSourceStep_packages]

theorem mergeCoverageReports_packages (acc inc : Coverage) :
    (mergeCoverageReports acc inc).Packages
      = inc.Packages.foldl (keyedStep Package.Name packageCellAfter) acc.Packages := by
  unfold mergeCoverageReports
  rw [mergePackageStep_foldl]
  simp only
  rw [mergeSourceStep_foldl_packages]

theorem mergeCoverageReports_packages_unique (acc inc : Coverage)
    (h1 : (acc.Packages.map Package.Name).Nodup) (h2 : (inc.Packages.map Package.Name).Nodup) :
    (mergeCoverageReports acc inc).Packages
      = acc.Packages.map (mergedCell Package.Name packageCellAfter inc.Packages)
        ++ inc.Packages.filter (fun x => decide (x.Name ∉ acc.Packages.map Package.Name)) := by
  rw [mergeCoverageReports_packages]
  exact keyedStep_foldl Package.Name packageCellAfter (fun _ _ => rfl) _ _ h1 h2

/-! ## Hit counts along a path -/

theorem linesHits_self (lines : List Line) (l : Line)
    (hnd : (lines.map Line.Number).Nodup) (hl : l ∈ lines) :
    linesHits lines l.Number = l.Hits := by
  unfold linesHits
  rw [find_of_mem_nodup Line.Number lines l hnd hl]

theorem methodsHits_self (Ms : List Method) (M : Method) (n : Int)
    (hnd : (Ms.map Method.Name).Nodup) (hM : M ∈ Ms) :
    methodsHits Ms M.Name n = linesHits M.Lines n := by
  unfold methodsHits
  rw [find_of_mem_nodup Method.Name Ms M hnd hM]

theorem classesHits_self (Cs : List Class) (C : Class) (m : String) (n : Int)
    (hnd : (Cs.map Class.Name).Nodup) (hC : C ∈ Cs) :
    classesHits Cs C.Name m n = methodsHits C.Methods m n := by
  unfold classesHits
  rw [find_of_mem_nodup Class.Name Cs C hnd hC]

theorem packagesHits_self (Ps : List Package) (P : Package) (c m : String) (n : Int)
    (hnd : (Ps.map Package.Name).Nodup) (hP : P ∈ Ps) :
    packagesHits Ps P.Name c m n = classesHits P.Classes c m n := by
  unfold packagesHits
  rw [find_of_mem_nodup Package.Name Ps P hnd hP]

theorem packagesHits_absent (Ps : List Package) (p c m : String) (n : Int)
    (h : p ∉ Ps.map Package.Name) : packagesHits Ps p c m n = 0 := by
  unfold packagesHits
  rw [find_none_of_not_mem Package.Name p Ps h]

theorem mergedLine_hits (inc : List Line) (l : Line) (hl : IsInt64 l.Hits) :
    (mergedCell Line.Number Line.addHits inc l).Number = l.Number
    ∧ (mergedCell Line.Number Line.addHits inc l).Hits
        = wrapInt (l.Hits + linesHits inc l.Number) := by
  unfold mergedCell linesHits
  cases inc.find? (fun x => x.Number == l.Number) with
  | none => simp [wrapInt_of_isInt64 l.Hits hl]
  | some x => simp [Line.addHits]

theorem mergedMethod_hits (Ns : List Method) (M : Method) (hM : M.UniqueKeys)
    (hMr : LinesInRange M.Lines) (hNs : ∀ N ∈ Ns, N.UniqueKeys) :
    (mergedCell Method.Name methodCellAfter Ns M).Name = M.Name
    ∧ ∀ l ∈ (mergedCell Method.Name methodCellAfter Ns M).Lines,
        l.Hits = wrapInt (linesHits M.Lines l.Number + methodsHits Ns M.Name l.Number) := by
  unfold mergedCell methodsHits
  cases hf : Ns.find? (fun x => x.Name == M.Name) with
  | none =>
    refine ⟨rfl, ?_⟩
    intro l hl
    simp only
    rw [linesHits_self M.Lines l hM hl, add_zero, wrapInt_of_isInt64 l.Hits (hMr l hl)]
  | some N =>
    have hN : N.UniqueKeys := hNs N (List.mem_of_find?_eq_some hf)
    simp only
    rw [methodCellAfter_unique M N hM hN]
    refine ⟨rfl, ?_⟩
    intro l hl
    obtain ⟨l0, hl0, rfl⟩ := List.mem_map.mp hl
    obtain ⟨h1, h2⟩ := mergedLine_hits N.Lines l0 (hMr l0 hl0)
    rw [h1, h2, linesHits_self M.Lines l0 hM hl0]

theorem mergedClass_hits (Ds : List Class) (C : Class) (hC : C.UniqueKeys)
    (hCr : C.HitsInRange) (hDs : ∀ D ∈ Ds, D.UniqueKeys) :
    (mergedCell Class.Name classCellAfter Ds C).Name = C.Name
    ∧ ∀ M ∈ (mergedCell Class.Name classCellAfter Ds C).Methods, ∀ l ∈ M.Lines,
        l.Hits = wrapInt (methodsHits C.Methods M.Name l.Number
          + classesHits Ds C.Name M.Name l.Number) := by
  unfold mergedCell classesHits
  cases hf : Ds.find? (fun x => x.Name == C.Name) with
  | none =>
    refine ⟨rfl, ?_⟩
    intro M hM l hl
    simp only
    rw [methodsHits_self C.Methods M _ hC.1 hM, linesHits_self M.Lines l (hC.2 M hM) hl,
      add_zero, wrapInt_of_isInt64 l.Hits (hCr M hM l hl)]
  | some D =>
    have hD : D.UniqueKeys := hDs D (List.mem_of_find?_eq_some hf)
    simp only
    refine ⟨by rw [classCellAfter_eq], ?_⟩
    rw [classCellAfter_methods C D hC.1 hD.1]
    intro M hM l hl
    obtain ⟨M0, hM0, rfl⟩ := List.mem_map.mp hM
    obtain ⟨h1, h2⟩ := mergedMethod_hits D.Methods M0 (hC.2 M0 hM0) (hCr M0 hM0) hD.2
    rw [h2 l hl, h1, methodsHits_self C.Methods M0 _ hC.1 hM0]

theorem mergedPackage_hits (Qs : List Package) (P : Package) (hP : P.UniqueKeys)
    (hPr : P.HitsInRange) (hQs : ∀ Q ∈ Qs, Q.UniqueKeys) :
    (mergedCell Package.Name packageCellAfter Qs P).Name = P.Name
    ∧ ∀ C ∈ (mergedCell Package.Name packageCellAfter Qs P).Classes, ∀ M ∈ C.Methods,
        ∀ l ∈ M.Lines,
          l.Hits = wrapInt (classesHits P.Classes C.Name M.Name l.Number
            + packagesHits Qs P.Name C.Name M.Name l.Number) := by
  unfold mergedCell packagesHits
  cases hf : Qs.find? (fun x => x.Name == P.Name) with
  | none =>
    refine ⟨rfl, ?_⟩
    intro C hC M hM l hl
    simp only
    rw [classesHits_self P.Classes C _ _ hP.1 hC,
      methodsHits_self C.Methods M _ (hP.2 C hC).1 hM,
      linesHits_self M.Lines l ((hP.2 C hC).2 M hM) hl, add_zero,
      wrapInt_of_isInt64 l.Hits (hPr C hC M hM l hl)]
  | some Q =>
    have hQ : Q.UniqueKeys := hQs Q (List.mem_of_find?_eq_some hf)
    simp only
    refine ⟨by rw [packageCellAfter_eq], ?_⟩
    rw [packageCellAfter_classes P Q hP.1 hQ.1]
    intro C hC M hM l hl
    obtain ⟨C0, hC0, rfl⟩ := List.mem_map.mp hC
    obtain ⟨h1, h2⟩ := mergedClass_hits Q.Classes C0 (hP.2 C0 hC0) (hPr C0 hC0) hQ.2
    rw [h2 M hM l hl, h1, classesHits_self P.Classes C0 _ _ hP.1 hC0]

/-- C1, as the code has it: with unique keys at every level of both reports
and hit counts that are Go ints, every line the accumulator holds after the
merge under package `p`, class `c`, method `m` with number `n` has as hit
count the hits of `p/c/m/n` in the accumulator before the merge (0 when
absent) plus the hits of `p/c/m/n` in the incoming report (0 when absent),
wrapped into the 64-bit range; it is the plain sum whenever that sum is a Go
int. -/
theorem merge_line_hits_wrapped_sum (acc inc : Coverage) (hacc : acc.UniqueKeys)
    (hinc : inc.UniqueKeys) (haccR : acc.HitsInRange) (hincR : inc.HitsInRange) :
    ∀ P ∈ (mergeCoverageReports acc inc).Packages, ∀ C ∈ P.Classes, ∀ M ∈ C.Methods,
      ∀ l ∈ M.Lines,
        l.Hits = wrapInt (acc.hitsOrZero P.Name C.Name M.Name l.Number
          + inc.hitsOrZero P.Name C.Name M.Name l.Number)
        ∧ (IsInt64 (acc.hitsOrZero P.Name C.Name M.Name l.Number
              + inc.hitsOrZero P.Name C.Name M.Name l.Number) →
            l.Hits = acc.hitsOrZero P.Name C.Name M.Name l.Number
              + inc.hitsOrZero P.Name C.Name M.Name l.Number) := by
  intro P hP C hC M hM l hl
  have key : l.Hits = wrapInt (acc.hitsOrZero P.Name C.Name M.Name l.Number
      + inc.hitsOrZero P.Name C.Name M.Name l.Number) := by
    unfold Coverage.hitsOrZero
    rw [mergeCoverageReports_packages_unique acc inc hacc.1 hinc.1] at hP
    rcases List.mem_append.mp hP with hP | hP
    · obtain ⟨P0, hP0, rfl⟩ := List.mem_map.mp hP
      obtain ⟨h1, h2⟩ := mergedPackage_hits inc.Packages P0 (hacc.2 P0 hP0) (haccR P0 hP0)
        hinc.2
      rw [h2 C hC M hM l hl, h1, packagesHits_self acc.Packages P0 _ _ _ hacc.1 hP0]
    · obtain ⟨hPi, hnot⟩ := List.mem_filter.mp hP
      have hnot2 : P.Name ∉ acc.Packages.map Package.Name := by simpa using hnot
      have hPk := hinc.2 P hPi
      rw [packagesHits_absent acc.Packages _ _ _ _ hnot2,
        packagesHits_self inc.Packages P _ _ _ hinc.1 hPi,
        classesHits_self P.Classes C _ _ hPk.1 hC,
        methodsHits_self C.Methods M _ (hPk.2 C hC).1 hM,
        linesHits_self M.Lines l ((hPk.2 C hC).2 M hM) hl, zero_add,
        wrapInt_of_isInt64 l.Hits (hincR P hPi C hC M hM l hl)]
  exact ⟨key, fun h => by rw [key, wrapInt_of_isInt64 _ h]⟩

/-! ## New packages -/

theorem keyedStep_foldl_absent {α κ : Type} [BEq κ] [LawfulBEq κ] (key : α → κ)
    (cell : α → α → α) :
    ∀ (inc loc : List α), (inc.map key).Nodup → (∀ x ∈ inc, key x ∉ loc.map key) →
      inc.foldl (keyedStep key cell) loc = loc ++ inc := by
  intro inc
  induction inc with
  | nil => intro loc _ _; simp
  | cons x inc ih =>
    intro loc hnd habs
    rw [List.map_cons, List.nodup_cons] at hnd
    have hx : key x ∉ loc.map key := habs x (List.mem_cons_self _ _)
    have hstep : keyedStep key cell loc x = loc ++ [x] := by
      unfold keyedStep
      rw [find_none_of_not_mem key (key x) loc hx]
    rw [List.foldl_cons, hstep, ih (loc ++ [x]) hnd.2]
    · simp
    · intro y hy hmem
      rw [List.map_append, List.mem_append] at hmem
      rcases hmem with h | h
      · exact habs y (List.mem_cons_of_mem _ hy) h
      · have : key y = key x := by simpa using h
        exact hnd.1 (this ▸ List.mem_map_of_mem key hy)

/-- C5: when the incoming package names are pairwise distinct and none of
them names a package of the accumulator, the merge leaves as package list
the old list followed by the incoming packages, in incoming order, each
package old or new exactly as it was. -/
theorem merge_new_packages_appended (acc inc : Coverage)
    (hdistinct : (inc.Packages.map Package.Name).Nodup)
    (habsent : ∀ P ∈ inc.Packages, P.Name ∉ acc.Packages.map Package.Name) :
    (mergeCoverageReports acc inc).Packages = acc.Packages ++ inc.Packages := by
  rw [mergeCoverageReports_packages]
  exact keyedStep_foldl_absent Package.Name packageCellAfter _ _ hdistinct habsent

/-! ## Sources -/

theorem firstOccurrences_filter (q : String → Bool) (l : List Source) :
    firstOccurrences (l.filter (fun t => q t.Path))
      = (firstOccurrences l).filter (fun t => q t.Path) := by
  induction l with
  | nil => rfl
  | cons s r ih =>
    by_cases hq : q s.Path = true
    · have e1 : ∀ (a : Source) (as : List Source), q a.Path = true →
          (a :: as).filter (fun t => q t.Path) = a :: as.filter (fun t => q t.Path) := by
        intro a as h; simp [List.filter_cons, h]
      rw [e1 s r hq]
      simp only [firstOccurrences]
      rw [e1 s _ hq, ih, List.filter_filter, List.filter_filter]
      congr 1
      apply List.filter_congr
      intro a _
      exact Bool.and_comm _ _
    · have e2 : ∀ (a : Source) (as : List Source), ¬ q a.Path = true →
          (a :: as).filter (fun t => q t.Path) = as.filter (fun t => q t.Path) := by
        intro a as h; simp [List.filter_cons, h]
      rw [e2 s r hq]
      simp only [firstOccurrences]
      rw [e2 s _ hq, ih, List.filter_filter]
      apply List.filter_congr
      intro a _
      by_cases ha : q a.Path = true
      · have : a.Path ≠ s.Path := by
          intro h; rw [h] at ha; exact hq ha
        simp [ha, this]
      · simp [ha]

theorem firstOccurrences_sublist (l : List Source) : (firstOccurrences l).Sublist l := by
  induction l with
  | nil => exact List.Sublist.refl _
  | cons s r ih =>
    simp only [firstOccurrences]
    exact List.Sublist.cons₂ s ((List.filter_sublist _).trans ih)

theorem firstOccurrences_nodup (l : List Source) :
    ((firstOccurrences l).map Source.Path).Nodup := by
  induction l with
  | nil => simp [firstOccurrences]
  | cons s r ih =>
    simp only [firstOccurrences, List.map_cons]
    rw [List.nodup_cons]
    constructor
    · intro h
      obtain ⟨t, ht, hp⟩ := List.mem_map.mp h
      have := (List.mem_filter.mp ht).2
      simp [hp] at this
    · exact List.Nodup.sublist (List.Sublist.map _ (List.filter_sublist _)) ih

theorem firstOccurrences_path_mem (l : List Source) (t : Source) (ht : t ∈ l) :
    t.Path ∈ (firstOccurrences l).map Source.Path := by
  induction l with
  | nil => cases ht
  | cons s r ih =>
    simp only [firstOccurrences, List.map_cons]
    by_cases hp : t.Path = s.Path
    · rw [hp]; exact List.mem_cons_self _ _
    · rcases List.mem_cons.mp ht with h | h
      · exact absurd (congrArg Source.Path h) hp
      · obtain ⟨u, hu, hup⟩ := List.mem_map.mp (ih h)
        apply List.mem_cons_of_mem
        refine List.mem_map.mpr ⟨u, List.mem_filter.mpr ⟨hu, ?_⟩, hup⟩
        simp [hup, hp]

theorem newSources_cons_new (old rest : List Source) (s : Source)
    (hs : s.Path ∉ old.map Source.Path) :
    newSources old (s :: rest) = s :: newSources (old ++ [s]) rest := by
  unfold newSources
  have h1 : (s :: rest).filter (fun t => decide (t.Path ∉ old.map Source.Path))
      = s :: rest.filter (fun t => decide (t.Path ∉ old.map Source.Path)) := by
    rw [List.filter_cons, if_pos (by simpa using hs)]
  rw [h1]
  simp only [firstOccurrences]
  congr 1
  rw [← firstOccurrences_filter (fun p => p != s.Path), List.filter_filter]
  congr 1
  apply List.filter_congr
  intro a _
  by_cases h2 : a.Path ∈ old.map Source.Path
  · have h2' := h2
    simp only [List.mem_map] at h2'
    simp [h2']
  · have h2' := h2
    simp only [List.mem_map] at h2'
    by_cases h3 : a.Path = s.Path
    · simp [h2', h3]
    · simp [h2', h3]

theorem newSources_cons_old (old rest : List Source) (s : Source)
    (hs : s.Path ∈ old.map Source.Path) :
    newSources old (s :: rest) = newSources old rest := by
  unfold newSources
  have h1 : (s :: rest).filter (fun t => decide (t.Path ∉ old.map Source.Path))
      = rest.filter (fun t => decide (t.Path ∉ old.map Source.Path)) := by
    rw [List.filter_cons, if_neg (by simpa using hs)]
  rw [h1]

theorem mergeSourceStep_foldl_sources (inc : List Source) :
    ∀ R : Coverage, (inc.foldl mergeSourceStep R).Sources
      = R.Sources ++ newSources R.Sources inc := by
  induction inc with
  | nil => intro R; simp [newSources, firstOccurrences]
  | cons s rest ih =>
    intro R
    rw [List.foldl_cons, ih]
    by_cases hs : s.Path ∈ R.Sources.map Source.Path
    · obtain ⟨t, ht, htp⟩ := List.mem_map.mp hs
      have hstep : mergeSourceStep R s = R := by
        unfold mergeSourceStep findSourceByPath
        cases hf : R.Sources.find? (fun source => source.Path == s.Path) with
        | none =>
          have := List.find?_eq_none.mp hf t ht
          simp [htp] at this
        | some _ => rfl
      rw [hstep, newSources_cons_old _ _ _ hs]
    · have hstep : mergeSourceStep R s = { R with Sources := R.Sources ++ [s] } := by
        unfold mergeSourceStep findSourceByPath
        rw [find_none_of_not_mem Source.Path s.Path R.Sources hs]
      rw [hstep, newSources_cons_new _ _ _ hs]
      simp

theorem mergeCoverageReports_sources (acc inc : Coverage) :
    (mergeCoverageReports acc inc).Sources
      = acc.Sources ++ newSources acc.Sources inc.Sources := by
  unfold mergeCoverageReports
  rw [mergePackageStep_foldl]
  exact mergeSourceStep_foldl_sources inc.Sources acc

/-- C6: after the merge the source list is the old list followed by, in
incoming order, the first occurrence of each incoming path that no source
already in the list has; so the old list is an initial segment of the new
one, every incoming path occurs in the new list, and a duplicate-free old
list gives a duplicate-free new list. -/
theorem merge_sources_first_occurrences (acc inc : Coverage) :
    (mergeCoverageReports acc inc).Sources
        = acc.Sources ++ newSources acc.Sources inc.Sources
    ∧ acc.Sources <+: (mergeCoverageReports acc inc).Sources
    ∧ (∀ s ∈ inc.Sources,
        s.Path ∈ (mergeCoverageReports acc inc).Sources.map Source.Path)
    ∧ ((acc.Sources.map Source.Path).Nodup →
        ((mergeCoverageReports acc inc).Sources.map Source.Path).Nodup) := by
  rw [mergeCoverageReports_sources]
  refine ⟨rfl, List.prefix_append _ _, ?_, ?_⟩
  · intro s hs
    rw [List.map_append, List.mem_append]
    by_cases hold : s.Path ∈ acc.Sources.map Source.Path
    · exact Or.inl hold
    · right
      apply firstOccurrences_path_mem
      exact List.mem_filter.mpr ⟨hs, by simpa using hold⟩
  · intro hnd
    rw [List.map_append, List.nodup_append]
    refine ⟨hnd, firstOccurrences_nodup _, ?_⟩
    intro p hp1 hp2
    obtain ⟨t, ht, htp⟩ := List.mem_map.mp hp2
    have ht2 := (firstOccurrences_sublist _).subset ht
    have := (List.mem_filter.mp ht2).2
    rw [← htp] at hp1
    simp only [decide_eq_true_eq] at this
    exact this hp1

/-! ## Merging a report twice -/

theorem mergedCell_self {α κ : Type} [BEq κ] [LawfulBEq κ] (key : α → κ)
    (cell : α → α → α) (l : List α) (hnd : (l.map key).Nodup) :
    l.map (mergedCell key cell l) = l.map (fun e => cell e e) := by
  apply List.map_congr_left
  intro e he
  unfold mergedCell
  rw [find_of_mem_nodup key l e hnd he]

theorem addHits_self (l : Line) : Line.addHits l l = l.double := by
  unfold Line.addHits Line.double
  rw [two_mul]

theorem mergedLines_self (lines : List Line) (hnd : (lines.map Line.Number).Nodup) :
    lines.map (mergedCell Line.Number Line.addHits lines) = lines.map Line.double := by
  rw [mergedCell_self Line.Number Line.addHits lines hnd]
  exact List.map_congr_left (fun l _ => addHits_self l)

theorem methodCellAfter_self (M : Method) (hM : M.UniqueKeys) :
    methodCellAfter M M = M.double := by
  rw [methodCellAfter_unique M M hM hM, mergedLines_self M.Lines hM]
  rfl

theorem mergeLineStep_numbers (st : List Line × LineMap) (x : Line) :
    ∃ ext, (mergeLineStep st x).1.map Line.Number = st.1.map Line.Number ++ ext := by
  unfold mergeLineStep
  cases st.2 x.Number with
  | none => exact ⟨[x.Number], by simp⟩
  | some i =>
    refine ⟨[], ?_⟩
    simp only [addHitsAt, List.append_nil]
    apply List.ext_getElem?
    intro j
    rw [List.getElem?_map, List.getElem?_map, List.getElem?_modify]
    cases st.1[j]? with
    | none => rfl
    | some l => by_cases h : i = j <;> simp [h]

theorem mergeLineStep_foldl_numbers (inc : List Line) :
    ∀ st : List Line × LineMap,
      ∃ ext, (inc.foldl mergeLineStep st).1.map Line.Number = st.1.map Line.Number ++ ext := by
  induction inc with
  | nil => intro st; exact ⟨[], by simp⟩
  | cons x inc ih =>
    intro st
    obtain ⟨e1, h1⟩ := mergeLineStep_numbers st x
    obtain ⟨e2, h2⟩ := ih (mergeLineStep st x)
    exact ⟨e1 ++ e2, by rw [List.foldl_cons, h2, h1, List.append_assoc]⟩

/-- The cells shared with the caller keep their line numbers, whatever is
merged in. -/
theorem sharedCells_mergeLines_numbers (existing current : List Line) :
    (sharedCells existing (mergeLines existing current)).map Line.Number
      = existing.map Line.Number := by
  obtain ⟨ext, h⟩ := mergeLineStep_foldl_numbers current (existing, indexLines existing)
  unfold sharedCells mergeLines
  rw [List.map_take, h]
  exact List.take_left' (by simp)

theorem classCellAfter_self_methods (C : Class) (hC : C.UniqueKeys) :
    classCellAfter C C
      = { C with
          Methods := C.Methods.map Method.double
          Lines := sharedCells C.Lines (mergeLines C.Lines C.Lines) } := by
  rw [classCellAfter_eq,
    keyedStep_foldl Method.Name methodCellAfter (fun _ _ => rfl) C.Methods C.Methods hC.1 hC.1,
    sharedCells_map_append, mergedCell_self Method.Name methodCellAfter C.Methods hC.1]
  congr 1
  exact List.map_congr_left (fun M hM => methodCellAfter_self M (hC.2 M hM))

theorem classCellAfter_self (C : Class) (hC : C.UniqueKeys)
    (hL : (C.Lines.map Line.Number).Nodup) :
    classCellAfter C C = C.double := by
  rw [classCellAfter_self_methods C hC, sharedCells_mergeLines C.Lines C.Lines hL hL,
    mergedLines_self C.Lines hL]
  rfl

theorem classCellAfter_self_erase (C : Class) (hC : C.UniqueKeys) :
    (classCellAfter C C).eraseClassHits = C.double.eraseClassHits := by
  rw [classCellAfter_self_methods C hC]
  unfold Class.eraseClassHits Class.double
  simp only [List.map_map]
  congr 1
  have h := sharedCells_mergeLines_numbers C.Lines C.Lines
  have e : ∀ ls : List Line, ls.map (fun l => ({ l with Hits := 0 } : Line))
      = (ls.map Line.Number).map (fun n => (⟨n, 0⟩ : Line)) := by
    intro ls; rw [List.map_map]; rfl
  have e2 : C.Lines.map ((fun l => ({ l with Hits := 0 } : Line)) ∘ Line.double)
      = (C.Lines.map Line.Number).map (fun n => (⟨n, 0⟩ : Line)) := by
    rw [List.map_map]; rfl
  rw [e, h, e2]

theorem packageCellAfter_self_classes (P : Package) (hP : P.UniqueKeys) :
    packageCellAfter P P
      = { P with Classes := P.Classes.map (fun C => classCellAfter C C) } := by
  rw [packageCellAfter_eq,
    keyedStep_foldl Class.Name classCellAfter (fun _ _ => rfl) P.Classes P.Classes hP.1 hP.1,
    sharedCells_map_append, mergedCell_self Class.Name classCellAfter P.Classes hP.1]

theorem packageCellAfter_self (P : Package) (hP : P.UniqueKeys)
    (hL : ∀ C ∈ P.Classes, (C.Lines.map Line.Number).Nodup) :
    packageCellAfter P P = P.double := by
  rw [packageCellAfter_self_classes P hP]
  unfold Package.double
  congr 1
  exact List.map_congr_left (fun C hC => classCellAfter_self C (hP.2 C hC) (hL C hC))

theorem packageCellAfter_self_erase (P : Package) (hP : P.UniqueKeys) :
    (packageCellAfter P P).eraseClassHits = P.double.eraseClassHits := by
  rw [packageCellAfter_self_classes P hP]
  unfold Package.eraseClassHits Package.double
  simp only [List.map_map]
  congr 1
  exact List.map_congr_left (fun C hC => classCellAfter_self_erase C (hP.2 C hC))

theorem merge_into_empty_packages (R : Coverage)
    (hR : (R.Packages.map Package.Name).Nodup) :
    (mergeCoverageReports Coverage.empty R).Packages = R.Packages := by
  rw [mergeCoverageReports_packages]
  have := keyedStep_foldl_absent Package.Name packageCellAfter R.Packages [] hR
    (by intro x _ h; cases h)
  simpa [Coverage.empty] using this

theorem merge_twice_packages (R : Coverage) (hR : R.UniqueKeys) :
    (mergeCoverageReports (mergeCoverageReports Coverage.empty R) R).Packages
      = R.Packages.map (fun P => packageCellAfter P P) := by
  have honce := merge_into_empty_packages R hR.1
  rw [mergeCoverageReports_packages_unique _ R (honce ▸ hR.1) hR.1, honce,
    mergedCell_self Package.Name packageCellAfter R.Packages hR.1]
  have hnone : R.Packages.filter (fun x => decide (x.Name ∉ R.Packages.map Package.Name))
      = [] := by
    rw [List.filter_eq_nil_iff]
    intro P hP
    simpa using ⟨P, hP, rfl⟩
  rw [hnone, List.append_nil]

/-- C8, as the code has it: for a report with unique keys at every level of
the path package / class / method / line, merging it into an empty
accumulator and then merging it again gives the packages of the single merge,
entity for entity and in the same order (nothing duplicated, class-level line
numbers included), with the hit count of every method line doubled in 64-bit
arithmetic (`Line.double`: twice the count, wrapped into the range of a Go
int, and exactly twice the count whenever that is a Go int); where the
class-level line lists have unique numbers as well, their hit counts are
doubled likewise, so that the whole tree is the single-merge tree with every
hit count doubled in 64-bit arithmetic. -/
theorem merge_twice_doubles_hits (R : Coverage) (hR : R.UniqueKeys) :
    (mergeCoverageReports (mergeCoverageReports Coverage.empty R) R).Packages.map
        Package.eraseClassHits
      = ((mergeCoverageReports Coverage.empty R).Packages.map Package.double).map
          Package.eraseClassHits
    ∧ (R.UniqueClassLines →
        (mergeCoverageReports (mergeCoverageReports Coverage.empty R) R).Packages
          = (mergeCoverageReports Coverage.empty R).Packages.map Package.double)
    ∧ (∀ l : Line, l.double.Number = l.Number ∧ l.double.Hits = wrapInt (2 * l.Hits)
        ∧ (IsInt64 (2 * l.Hits) → l.double.Hits = 2 * l.Hits)) := by
  rw [merge_twice_packages R hR, merge_into_empty_packages R hR.1]
  refine ⟨?_, ?_, ?_⟩
  · rw [List.map_map, List.map_map]
    exact List.map_congr_left (fun P hP => packageCellAfter_self_erase P (hR.2 P hP))
  · intro hL
    exact List.map_congr_left (fun P hP => packageCellAfter_self P (hR.2 P hP) (hL P hP))
  · intro l
    exact ⟨rfl, rfl, fun h => wrapInt_of_isInt64 _ h⟩

/-! ## The recalculated line totals -/

theorem foldl_add_eq_sum {α : Type} (f : α → Nat) (l : List α) :
    ∀ n, l.foldl (fun k a => k + f a) n = n + (l.map f).sum := by
  induction l with
  | nil => intro n; simp
  | cons a as ih => intro n; rw [List.foldl_cons, ih]; simp [Nat.add_assoc]

theorem methodValidLines_eq (M : Method) : methodValidLines M = M.Lines.length := by
  unfold methodValidLines
  have := foldl_add_eq_sum (fun _ : Line => 1) M.Lines 0
  simpa using this

theorem methodCoveredLines_eq (M : Method) :
    methodCoveredLines M = (M.Lines.filter (fun l => decide (l.Hits > 0))).length := by
  unfold methodCoveredLines
  have h : ∀ (l : List Line) (n : Nat),
      l.foldl (fun n line => if line.Hits > 0 then n + 1 else n) n
        = n + (l.filter (fun l => decide (l.Hits > 0))).length := by
    intro l
    induction l with
    | nil => intro n; simp
    | cons a as ih =>
      intro n
      rw [List.foldl_cons, ih]
      by_cases ha : a.Hits > 0
      · simp [List.filter_cons, ha]; omega
      · simp [List.filter_cons, ha]
  simpa using h M.Lines 0

theorem coverageValidLines_eq (R : Coverage) : coverageValidLines R = R.lineRecords := by
  unfold coverageValidLines Coverage.lineRecords
  rw [foldl_add_eq_sum, Nat.zero_add]
  congr 1
  apply List.map_congr_left
  intro P _
  unfold packageValidLines
  rw [foldl_add_eq_sum, Nat.zero_add]
  congr 1
  apply List.map_congr_left
  intro C _
  unfold classValidLines
  rw [foldl_add_eq_sum, Nat.zero_add]
  congr 1
  apply List.map_congr_left
  intro M _
  exact methodValidLines_eq M

theorem coverageCoveredLines_eq (R : Coverage) :
    coverageCoveredLines R = R.hitLineRecords := by
  unfold coverageCoveredLines Coverage.hitLineRecords
  rw [foldl_add_eq_sum, Nat.zero_add]
  congr 1
  apply List.map_congr_left
  intro P _
  unfold packageCoveredLines
  rw [foldl_add_eq_sum, Nat.zero_add]
  congr 1
  apply List.map_congr_left
  intro C _
  unfold classCoveredLines
  rw [foldl_add_eq_sum, Nat.zero_add]
  congr 1
  apply List.map_congr_left
  intro M _
  exact methodCoveredLines_eq M

theorem recalculateMetrics_lineRecords (R : Coverage) :
    (recalculateMetrics R).lineRecords = R.lineRecords
    ∧ (recalculateMetrics R).hitLineRecords = R.hitLineRecords := by
  unfold recalculateMetrics Coverage.lineRecords Coverage.hitLineRecords
  simp only [List.map_map]
  constructor <;>
  · congr 1
    apply List.map_congr_left
    intro P _
    simp only [Function.comp, recalcPackage, List.map_map]
    congr 1
    apply List.map_congr_left
    intro C _
    simp only [Function.comp, recalcClass, List.map_map]
    congr 1

/-- C9: after `recalculateMetrics` the report's lines-valid is the number of
line records over all methods of all classes of all packages, and its
lines-covered is the number of those records with a hit count above 0 (the
pass leaves the line records themselves as they were). -/
theorem recalculate_line_totals (R : Coverage) :
    (recalculateMetrics R).LinesValid = ((recalculateMetrics R).lineRecords : Int)
    ∧ (recalculateMetrics R).LinesCovered = ((recalculateMetrics R).hitLineRecords : Int)
    ∧ (recalculateMetrics R).lineRecords = R.lineRecords
    ∧ (recalculateMetrics R).hitLineRecords = R.hitLineRecords := by
  obtain ⟨h1, h2⟩ := recalculateMetrics_lineRecords R
  refine ⟨?_, ?_, h1, h2⟩
  · rw [h1, ← coverageValidLines_eq]; rfl
  · rw [h2, ← coverageCoveredLines_eq]; rfl

/-! ## The statements at concrete reports -/

/-- C1 at a concrete pair: `accPCM` and `incNewLine` have unique keys and
small hit counts, and line 1 of `p / C / m`, which the merged accumulator
holds with 6 hits, has the 1 hit of the accumulator plus the 5 hits of the
incoming report. -/
theorem merge_line_hits_wrapped_sum_witness :
    accPCM.UniqueKeys ∧ incNewLine.UniqueKeys
    ∧ accPCM.HitsInRange ∧ incNewLine.HitsInRange
    ∧ mergedPCM ∈ (mergeCoverageReports accPCM incNewLine).Packages
    ∧ (6 : Int) = wrapInt (accPCM.hitsOrZero "p" "C" "m" 1
        + incNewLine.hitsOrZero "p" "C" "m" 1)
    ∧ (6 : Int) = accPCM.hitsOrZero "p" "C" "m" 1 + incNewLine.hitsOrZero "p" "C" "m" 1 :=
  ⟨by decide, by decide, by decide, by decide, by decide,
    (merge_line_hits_wrapped_sum accPCM incNewLine (by decide) (by decide) (by decide)
      (by decide)
      mergedPCM (by decide)
      (mkClass "C" [mkMethod "m" [⟨1, 6⟩]] [⟨1, 1⟩]) (by decide)
      (mkMethod "m" [⟨1, 6⟩]) (by decide)
      ⟨1, 6⟩ (by decide)).1,
    (merge_line_hits_wrapped_sum accPCM incNewLine (by decide) (by decide) (by decide)
      (by decide)
      mergedPCM (by decide)
      (mkClass "C" [mkMethod "m" [⟨1, 6⟩]] [⟨1, 1⟩]) (by decide)
      (mkMethod "m" [⟨1, 6⟩]) (by decide)
      ⟨1, 6⟩ (by decide)).2 (by decide)⟩

/-- C1 at the edge of the range: `accMaxHits` holds line `p / C / m / 1` with
9223372036854775807 hits, `incOneHit` has it with 1 hit, both with unique
keys; after the merge the line holds -9223372036854775808 hits, not the sum
9223372036854775808. -/
theorem line_hits_sum_overflows :
    accMaxHits.UniqueKeys ∧ incOneHit.UniqueKeys
    ∧ methodLines (mergeCoverageReports accMaxHits incOneHit)
        = [("p", "C", "m", [⟨1, -9223372036854775808⟩])]
    ∧ accMaxHits.hitsOrZero "p" "C" "m" 1 + incOneHit.hitsOrZero "p" "C" "m" 1
        = 9223372036854775808
    ∧ ¬ (∀ P ∈ (mergeCoverageReports accMaxHits incOneHit).Packages, ∀ C ∈ P.Classes,
          ∀ M ∈ C.Methods, ∀ l ∈ M.Lines,
            l.Hits = accMaxHits.hitsOrZero P.Name C.Name M.Name l.Number
              + incOneHit.hitsOrZero P.Name C.Name M.Name l.Number) := by
  decide

/-- C8 at the edge of the range: `reportHalfRange` has unique keys and holds
line `p / C / m / 1` with 4611686018427387904 hits; merged once the line has
that count, merged twice it has -9223372036854775808 hits, not twice the
count. -/
theorem merge_twice_overflows :
    reportHalfRange.UniqueKeys ∧ reportHalfRange.UniqueClassLines
    ∧ methodLines (mergeCoverageReports Coverage.empty reportHalfRange)
        = [("p", "C", "m", [⟨1, 4611686018427387904⟩])]
    ∧ methodLines
          (mergeCoverageReports (mergeCoverageReports Coverage.empty reportHalfRange)
            reportHalfRange)
        = [("p", "C", "m", [⟨1, -9223372036854775808⟩])]
    ∧ (-9223372036854775808 : Int) ≠ 2 * 4611686018427387904 := by
  decide

/-- C2 on the code: `accPCM` (the accumulator `main` holds after its own
document) has method `p / C / m` with line 1; the incoming `incNewLine` has
`p / C / m` with lines 1 and 2.  After the merge the method has line 1 alone,
with 1 + 5 hits: the incoming line 2 is not stored. -/
theorem new_line_not_stored :
    mergeCoverageReports Coverage.empty accPCM = accPCM
    ∧ methodLines incNewLine = [("p", "C", "m", [⟨1, 5⟩, ⟨2, 4⟩])]
    ∧ methodLines (mergeCoverageReports accPCM incNewLine) = [("p", "C", "m", [⟨1, 6⟩])] := by
  decide

/-- C3 on the code: `accPCM` has package `p` with the class `C`; the incoming
`incNewClass` has package `p` with a class `D`.  After the merge package `p`
is as before: the incoming class `D` is not stored. -/
theorem new_class_not_stored :
    mergeCoverageReports Coverage.empty accPCM = accPCM
    ∧ incNewClass.Packages.map (fun P => (P.Name, P.Classes.map Class.Name)) = [("p", ["D"])]
    ∧ (mergeCoverageReports accPCM incNewClass).Packages = accPCM.Packages
    ∧ accPCM.Packages.map (fun P => (P.Name, P.Classes.map Class.Name)) = [("p", ["C"])] := by
  decide

/-- C4 on the code: `accPCM` has class `p / C` with the method `m`; the
incoming `incNewMethod` has class `p / C` with a method `k`.  After the merge
class `p / C` is as before: the incoming method `k` is not stored. -/
theorem new_method_not_stored :
    mergeCoverageReports Coverage.empty accPCM = accPCM
    ∧ methodLines incNewMethod = [("p", "C", "k", [⟨7, 4⟩])]
    ∧ (mergeCoverageReports accPCM incNewMethod).Packages = accPCM.Packages
    ∧ methodLines accPCM = [("p", "C", "m", [⟨1, 1⟩])] := by
  decide

/-- C5 at a concrete pair: the packages `q`, `r` of `incNewPackages` are
distinct and absent from `accPCM`, and the merge appends them. -/
theorem merge_new_packages_appended_witness :
    (incNewPackages.Packages.map Package.Name).Nodup
    ∧ (∀ P ∈ incNewPackages.Packages, P.Name ∉ accPCM.Packages.map Package.Name)
    ∧ (mergeCoverageReports accPCM incNewPackages).Packages
        = accPCM.Packages ++ incNewPackages.Packages :=
  ⟨by decide, by decide,
    merge_new_packages_appended accPCM incNewPackages (by decide) (by decide)⟩

/-- C6 at a concrete pair: `accPCM` has the one source `src`, and after
merging the sources `lib`, `src`, `lib` the list has no duplicate path. -/
theorem merge_sources_first_occurrences_witness :
    (accPCM.Sources.map Source.Path).Nodup
    ∧ ((mergeCoverageReports accPCM incNewPackages).Sources.map Source.Path).Nodup :=
  ⟨by decide, (merge_sources_first_occurrences accPCM incNewPackages).2.2.2 (by decide)⟩

/-- C7 on the code: `reportA` and `reportB` have unique keys and share
`p / C / m`.  Merged in the order A, B the method keeps line 1 alone and the
report counts 1 valid and 1 covered line; merged in the order B, A the method
has lines 1 and 2 and the report counts 2 valid and 2 covered lines. -/
theorem merge_order_changes_lines :
    reportA.UniqueKeys ∧ reportB.UniqueKeys
    ∧ methodLines (recalculateMetrics
        (mergeCoverageReports (mergeCoverageReports Coverage.empty reportA) reportB))
      = [("p", "C", "m", [⟨1, 2⟩])]
    ∧ methodLines (recalculateMetrics
        (mergeCoverageReports (mergeCoverageReports Coverage.empty reportB) reportA))
      = [("p", "C", "m", [⟨1, 2⟩, ⟨2, 1⟩])]
    ∧ (recalculateMetrics
        (mergeCoverageReports (mergeCoverageReports Coverage.empty reportA) reportB)).LinesValid = 1
    ∧ (recalculateMetrics
        (mergeCoverageReports (mergeCoverageReports Coverage.empty reportB) reportA)).LinesValid = 2
    ∧ (recalculateMetrics
        (mergeCoverageReports (mergeCoverageReports Coverage.empty reportA) reportB)).LinesCovered = 1
    ∧ (recalculateMetrics
        (mergeCoverageReports (mergeCoverageReports Coverage.empty reportB) reportA)).LinesCovered = 2 := by
  decide

/-- C8 at a concrete report: `accPCM` has unique keys, class-level lines
included, and merging it twice doubles every hit count of the single merge
(the method line goes from 1 hit to 2). -/
theorem merge_twice_doubles_hits_witness :
    accPCM.UniqueKeys ∧ accPCM.UniqueClassLines
    ∧ (mergeCoverageReports (mergeCoverageReports Coverage.empty accPCM) accPCM).Packages.map
          Package.eraseClassHits
        = ((mergeCoverageReports Coverage.empty accPCM).Packages.map Package.double).map
            Package.eraseClassHits
    ∧ (mergeCoverageReports (mergeCoverageReports Coverage.empty accPCM) accPCM).Packages
        = (mergeCoverageReports Coverage.empty accPCM).Packages.map Package.double :=
  ⟨by decide, by decide, (merge_twice_doubles_hits accPCM (by decide)).1,
    (merge_twice_doubles_hits accPCM (by decide)).2.1 (by decide)⟩

/-- C10 on the code: after input 1 and input 2 of the scenario are merged
into the empty accumulator and the metrics recalculated, method `m` has the
two lines (1, hits 3), (2, hits 0) and the line rate 1 / 2; line 3 of input 2
is missing.  The complexity of class `C` is 0. -/
theorem scenario_third_line_missing :
    (recalculateMetrics
        (mergeCoverageReports (mergeCoverageReports Coverage.empty scenarioInput1)
          scenarioInput2)).Packages
      = [{ toMetrics := ⟨F64.quot 1 2, F64.bits 0, 0⟩, Name := "p",
           Classes := [{ toMetrics := ⟨F64.quot 1 2, F64.bits 0, 0⟩, Name := "C", Filename := "",
                         Methods := [{ toMetrics := ⟨F64.quot 1 2, F64.bits 0, 0⟩, Name := "m",
                                       Signature := "", Lines := [⟨1, 3⟩, ⟨2, 0⟩] }],
                         Lines := [] }] }] := by
  decide

/-! ## The recalculated complexities and what the pass reads and writes -/

theorem foldl_wrap_add {α : Type} (f : α → Int) (l : List α) :
    ∀ k : Int, IsInt64 k →
      l.foldl (fun k a => wrapInt (k + f a)) k = wrapInt (k + (l.map f).sum) := by
  induction l with
  | nil => intro k hk; simp [wrapInt_of_isInt64 k hk]
  | cons a as ih =>
    intro k _
    rw [List.foldl_cons, ih _ (wrapInt_isInt64 _), wrapInt_add_left, List.map_cons,
      List.sum_cons, add_assoc]

theorem classComplexity_eq (C : Class) :
    classComplexity C = wrapInt ((C.Methods.map (fun M => M.Complexity)).sum) := by
  unfold classComplexity
  rw [foldl_wrap_add _ _ 0 (by decide), zero_add]

theorem packageComplexity_eq (P : Package) :
    packageComplexity P = wrapInt ((P.Classes.map classComplexity).sum) := by
  unfold packageComplexity
  rw [foldl_wrap_add _ _ 0 (by decide), zero_add]

/-- C11, as the code has it: after `recalculateMetrics` the complexity of
every package is the sum of the complexities of its classes as recomputed,
and the complexity of every class is the sum of the complexities of its
methods (an empty sum, 0, for a class without methods), each sum wrapped into
the 64-bit range; the complexities of the methods are the ones the report had
before. -/
theorem recalculate_complexity_wrapped_sums (R : Coverage) :
    (∀ P ∈ (recalculateMetrics R).Packages,
      P.Complexity = wrapInt ((P.Classes.map (fun C => C.Complexity)).sum)
      ∧ ∀ C ∈ P.Classes,
          C.Complexity = wrapInt ((C.Methods.map (fun M => M.Complexity)).sum))
    ∧ (recalculateMetrics R).Packages.map
          (fun P => P.Classes.map (fun C => C.Methods.map (fun M => M.Complexity)))
        = R.Packages.map
          (fun P => P.Classes.map (fun C => C.Methods.map (fun M => M.Complexity))) := by
  have hm : ∀ C : Class, (recalcClass C).Methods.map (fun M => M.Complexity)
      = C.Methods.map (fun M => M.Complexity) := by
    intro C
    simp only [recalcClass, List.map_map]
    rfl
  constructor
  · intro P hP
    obtain ⟨P0, _, rfl⟩ := List.mem_map.mp hP
    constructor
    · show packageComplexity P0 = _
      rw [packageComplexity_eq]
      simp only [recalcPackage, List.map_map]
      rfl
    · intro C hC
      obtain ⟨C0, _, rfl⟩ := List.mem_map.mp hC
      show classComplexity C0 = _
      rw [classComplexity_eq, hm]
  · simp only [recalculateMetrics, List.map_map]
    apply List.map_congr_left
    intro P _
    simp only [Function.comp, recalcPackage, List.map_map]
    apply List.map_congr_left
    intro C _
    exact hm C

/-- C11 at a concrete report: the two methods of class `p / C` of
`complexMaxDoc` have the complexities 9223372036854775807 and 1; after
`recalculateMetrics` the class and the package have the complexity
-9223372036854775808, not the sum 9223372036854775808. -/
theorem complexity_sum_overflows :
    (recalculateMetrics complexMaxDoc).Packages.map
        (fun P => (P.Complexity, P.Classes.map (fun C =>
          (C.Complexity, C.Methods.map (fun M => M.Complexity)))))
      = [(-9223372036854775808,
          [(-9223372036854775808, [9223372036854775807, 1])])]
    ∧ ¬ (∀ P ∈ (recalculateMetrics complexMaxDoc).Packages, ∀ C ∈ P.Classes,
          C.Complexity = (C.Methods.map (fun M => M.Complexity)).sum) := by
  decide

/-- C12, as the code has it: `recalculateMetrics` leaves the report-level
complexity at the value it had before the call; the pass does not recompute
it from the packages. -/
theorem recalculate_report_complexity_kept (R : Coverage) :
    (recalculateMetrics R).Complexity = R.Complexity := rfl

/-- C12 at a concrete report: a document with one method of complexity 3 is
merged into the empty accumulator; after `recalculateMetrics` its package has
complexity 3 and the report has complexity 0, not the sum 3. -/
theorem report_complexity_not_summed :
    (recalculateMetrics (mergeCoverageReports Coverage.empty complexDoc)).Packages.map
        (fun P => P.Complexity) = [3]
    ∧ (recalculateMetrics (mergeCoverageReports Coverage.empty complexDoc)).Complexity = 0
    ∧ ¬ ((recalculateMetrics (mergeCoverageReports Coverage.empty complexDoc)).Complexity
        = ((recalculateMetrics (mergeCoverageReports Coverage.empty complexDoc)).Packages.map
            (fun P => P.Complexity)).sum) := by
  decide

theorem recalcMethod_eraseLineRate (M : Method) :
    recalcMethod M.eraseLineRate = recalcMethod M := rfl

theorem recalcClass_eraseLineRate (C : Class) :
    recalcClass C.eraseLineRate = recalcClass C := by
  have h1 : classValidLines C.eraseLineRate = classValidLines C := by
    simp only [classValidLines, Class.eraseLineRate, List.foldl_map]
    rfl
  have h2 : classCoveredLines C.eraseLineRate = classCoveredLines C := by
    simp only [classCoveredLines, Class.eraseLineRate, List.foldl_map]
    rfl
  have h3 : classComplexity C.eraseLineRate = classComplexity C := by
    simp only [classComplexity, Class.eraseLineRate, List.foldl_map]
    rfl
  have h4 : C.eraseLineRate.Methods.map recalcMethod = C.Methods.map recalcMethod := by
    simp only [Class.eraseLineRate, List.map_map]
    rfl
  unfold recalcClass
  rw [h1, h2, h3, h4]
  rfl

theorem recalcPackage_eraseLineRate (P : Package) :
    recalcPackage P.eraseLineRate = recalcPackage P := by
  have hv : ∀ C : Class, classValidLines C.eraseLineRate = classValidLines C := by
    intro C
    simp only [classValidLines, Class.eraseLineRate, List.foldl_map]
    rfl
  have hc : ∀ C : Class, classCoveredLines C.eraseLineRate = classCoveredLines C := by
    intro C
    simp only [classCoveredLines, Class.eraseLineRate, List.foldl_map]
    rfl
  have hx : ∀ C : Class, classComplexity C.eraseLineRate = classComplexity C := by
    intro C
    simp only [classComplexity, Class.eraseLineRate, List.foldl_map]
    rfl
  have h1 : packageValidLines P.eraseLineRate = packageValidLines P := by
    simp only [packageValidLines, Package.eraseLineRate, List.foldl_map, hv]
  have h2 : packageCoveredLines P.eraseLineRate = packageCoveredLines P := by
    simp only [packageCoveredLines, Package.eraseLineRate, List.foldl_map, hc]
  have h3 : packageComplexity P.eraseLineRate = packageComplexity P := by
    simp only [packageComplexity, Package.eraseLineRate, List.foldl_map, hx]
  have h4 : P.eraseLineRate.Classes.map recalcClass = P.Classes.map recalcClass := by
    simp only [Package.eraseLineRate, List.map_map]
    apply List.map_congr_left
    intro C _
    exact recalcClass_eraseLineRate C
  unfold recalcPackage
  rw [h1, h2, h3, h4]
  rfl

theorem recalculateMetrics_eraseLineRates (R : Coverage) :
    recalculateMetrics R.eraseLineRates = recalculateMetrics R := by
  have hv : ∀ P : Package, packageValidLines P.eraseLineRate = packageValidLines P := by
    intro P
    have := congrArg (fun Q : Package => Q.LineRate) (recalcPackage_eraseLineRate P)
    simp only [recalcPackage, F64.quot.injEq] at this
    exact this.2
  have hc : ∀ P : Package, packageCoveredLines P.eraseLineRate = packageCoveredLines P := by
    intro P
    have := congrArg (fun Q : Package => Q.LineRate) (recalcPackage_eraseLineRate P)
    simp only [recalcPackage, F64.quot.injEq] at this
    exact this.1
  have h1 : coverageValidLines R.eraseLineRates = coverageValidLines R := by
    simp only [coverageValidLines, Coverage.eraseLineRates, List.foldl_map, hv]
  have h2 : coverageCoveredLines R.eraseLineRates = coverageCoveredLines R := by
    simp only [coverageCoveredLines, Coverage.eraseLineRates, List.foldl_map, hc]
  have h4 : R.eraseLineRates.Packages.map recalcPackage = R.Packages.map recalcPackage := by
    simp only [Coverage.eraseLineRates, List.map_map]
    apply List.map_congr_left
    intro P _
    exact recalcPackage_eraseLineRate P
  unfold recalculateMetrics
  rw [h1, h2, h4]
  rfl

/-- C13: two reports that are equal apart from their line-rate fields (report,
package, class and method level) and their lines-covered and lines-valid get
the same result from `recalculateMetrics`: no rate or line total of the
output is taken from a rate or total of the input. -/
theorem recalculate_ignores_rates (R1 R2 : Coverage)
    (h : R1.eraseLineRates = R2.eraseLineRates) :
    recalculateMetrics R1 = recalculateMetrics R2 := by
  rw [← recalculateMetrics_eraseLineRates R1, h, recalculateMetrics_eraseLineRates R2]

/-- C13 at a concrete pair: `accPCMRates` is `accPCM` with other rates and line
totals, and both have the same recalculated report. -/
theorem recalculate_ignores_rates_witness :
    accPCM.eraseLineRates = accPCMRates.eraseLineRates
    ∧ accPCM ≠ accPCMRates
    ∧ recalculateMetrics accPCM = recalculateMetrics accPCMRates :=
  ⟨by decide, by decide, recalculate_ignores_rates accPCM accPCMRates (by decide)⟩

/-- C14: `recalculateMetrics` changes nothing but the line rates (all four
levels), the class and package complexities, lines-covered and lines-valid:
with those blanked the report is the same before and after, and in
particular the report keeps its branch rate, complexity, branches-covered,
branches-valid and sources. -/
theorem recalculate_frame (R : Coverage) :
    (recalculateMetrics R).eraseRecalculated = R.eraseRecalculated
    ∧ (recalculateMetrics R).BranchRate = R.BranchRate
    ∧ (recalculateMetrics R).Complexity = R.Complexity
    ∧ (recalculateMetrics R).BranchesCovered = R.BranchesCovered
    ∧ (recalculateMetrics R).BranchesValid = R.BranchesValid
    ∧ (recalculateMetrics R).Sources = R.Sources := by
  refine ⟨?_, rfl, rfl, rfl, rfl, rfl⟩
  have hc : ∀ C : Class, (recalcClass C).eraseRecalculated = C.eraseRecalculated := by
    intro C
    simp only [recalcClass, Class.eraseRecalculated, List.map_map]
    rfl
  have hp : ∀ P : Package, (recalcPackage P).eraseRecalculated = P.eraseRecalculated := by
    intro P
    have : (P.Classes.map recalcClass).map Class.eraseRecalculated
        = P.Classes.map Class.eraseRecalculated := by
      rw [List.map_map]
      exact List.map_congr_left (fun C _ => hc C)
    simp only [recalcPackage, Package.eraseRecalculated, this]
  have : (R.Packages.map recalcPackage).map Package.eraseRecalculated
      = R.Packages.map Package.eraseRecalculated := by
    rw [List.map_map]
    exact List.map_congr_left (fun P _ => hp P)
  simp only [recalculateMetrics, Coverage.eraseRecalculated, this]

theorem recalcClass_eraseClassLines (C : Class) :
    recalcClass C.eraseClassLines = (recalcClass C).eraseClassLines := rfl

theorem recalcPackage_eraseClassLines (P : Package) :
    recalcPackage P.eraseClassLines = (recalcPackage P).eraseClassLines := by
  have h1 : packageValidLines P.eraseClassLines = packageValidLines P := by
    simp only [packageValidLines, Package.eraseClassLines, List.foldl_map]
    rfl
  have h2 : packageCoveredLines P.eraseClassLines = packageCoveredLines P := by
    simp only [packageCoveredLines, Package.eraseClassLines, List.foldl_map]
    rfl
  have h3 : packageComplexity P.eraseClassLines = packageComplexity P := by
    simp only [packageComplexity, Package.eraseClassLines, List.foldl_map]
    rfl
  have h4 : P.eraseClassLines.Classes.map recalcClass
      = (P.Classes.map recalcClass).map Class.eraseClassLines := by
    simp only [Package.eraseClassLines, List.map_map]
    rfl
  unfold recalcPackage
  rw [h1, h2, h3, h4]
  rfl

theorem recalculateMetrics_eraseClassLines (R : Coverage) :
    recalculateMetrics R.eraseClassLines = (recalculateMetrics R).eraseClassLines := by
  have hv : ∀ P : Package, packageValidLines P.eraseClassLines = packageValidLines P := by
    intro P
    simp only [packageValidLines, Package.eraseClassLines, List.foldl_map]
    rfl
  have hc : ∀ P : Package, packageCoveredLines P.eraseClassLines = packageCoveredLines P := by
    intro P
    simp only [packageCoveredLines, Package.eraseClassLines, List.foldl_map]
    rfl
  have h1 : coverageValidLines R.eraseClassLines = coverageValidLines R := by
    simp only [coverageValidLines, Coverage.eraseClassLines, List.foldl_map, hv]
  have h2 : coverageCoveredLines R.eraseClassLines = coverageCoveredLines R := by
    simp only [coverageCoveredLines, Coverage.eraseClassLines, List.foldl_map, hc]
  have h4 : R.eraseClassLines.Packages.map recalcPackage
      = (R.Packages.map recalcPackage).map Package.eraseClassLines := by
    simp only [Coverage.eraseClassLines, List.map_map]
    apply List.map_congr_left
    intro P _
    exact recalcPackage_eraseClassLines P
  unfold recalculateMetrics
  rw [h1, h2, h4]
  rfl

/-- C15: two reports that are equal apart from the class-level line lists of
their classes get from `recalculateMetrics` results that are equal apart from
those lists: the same line rate and complexity for every method, class and
package, and the same line rate, lines-covered and lines-valid for the
report. -/
theorem recalculate_ignores_class_lines (R1 R2 : Coverage)
    (h : R1.eraseClassLines = R2.eraseClassLines) :
    (recalculateMetrics R1).eraseClassLines = (recalculateMetrics R2).eraseClassLines := by
  rw [← recalculateMetrics_eraseClassLines R1, h, recalculateMetrics_eraseClassLines R2]

/-- C15 at a concrete pair: `accPCMClassLines` is `accPCM` with another
class-level line list, and the recalculated reports agree apart from it. -/
theorem recalculate_ignores_class_lines_witness :
    accPCM.eraseClassLines = accPCMClassLines.eraseClassLines
    ∧ accPCM ≠ accPCMClassLines
    ∧ (recalculateMetrics accPCM).eraseClassLines
        = (recalculateMetrics accPCMClassLines).eraseClassLines :=
  ⟨by decide, by decide,
    recalculate_ignores_class_lines accPCM accPCMClassLines (by decide)⟩

/-! ## Merging an empty report -/

theorem mergeSourceStep_only_sources (R : Coverage) (s : Source) :
    ∃ srcs, mergeSourceStep R s = { R with Sources := srcs } := by
  unfold mergeSourceStep
  cases findSourceByPath R s.Path with
  | none => exact ⟨_, rfl⟩
  | some _ => exact ⟨R.Sources, rfl⟩

theorem mergeSourceStep_foldl_only_sources (inc : List Source) :
    ∀ R : Coverage, ∃ srcs, inc.foldl mergeSourceStep R = { R with Sources := srcs } := by
  induction inc with
  | nil => intro R; exact ⟨R.Sources, rfl⟩
  | cons s inc ih =>
    intro R
    obtain ⟨s1, h1⟩ := mergeSourceStep_only_sources R s
    obtain ⟨s2, h2⟩ := ih { R with Sources := s1 }
    exact ⟨s2, by rw [List.foldl_cons, h1, h2]⟩

theorem mergeSourceStep_foldl_eq (inc : List Source) (R : Coverage) :
    inc.foldl mergeSourceStep R
      = { R with Sources := R.Sources ++ newSources R.Sources inc } := by
  obtain ⟨srcs, h⟩ := mergeSourceStep_foldl_only_sources inc R
  have h2 := mergeSourceStep_foldl_sources inc R
  rw [h] at h2
  rw [h]
  exact congrArg (fun x => ({ R with Sources := x } : Coverage)) h2

/-- C16: an incoming report without packages changes nothing of the
accumulator but its source list; an incoming report without packages and
without sources leaves the accumulator as it is, so that
`recalculateMetrics` gives the same with or without that merge. -/
theorem merge_report_without_packages (acc inc : Coverage) (hP : inc.Packages = []) :
    mergeCoverageReports acc inc
        = { acc with Sources := acc.Sources ++ newSources acc.Sources inc.Sources }
    ∧ (inc.Sources = [] → mergeCoverageReports acc inc = acc)
    ∧ (inc.Sources = [] →
        recalculateMetrics (mergeCoverageReports acc inc) = recalculateMetrics acc) := by
  have h : mergeCoverageReports acc inc
      = { acc with Sources := acc.Sources ++ newSources acc.Sources inc.Sources } := by
    unfold mergeCoverageReports
    rw [hP, List.foldl_nil, mergeSourceStep_foldl_eq]
  have h2 : inc.Sources = [] → mergeCoverageReports acc inc = acc := by
    intro hS
    rw [h, hS]
    simp [newSources, firstOccurrences]
  exact ⟨h, h2, fun hS => by rw [h2 hS]⟩

/-- C16 at concrete reports: `incSourcesOnly` has no package and merging it
into `accPCM` only adds its source; the empty report has neither packages nor
sources and merging it leaves `accPCM` as it is. -/
theorem merge_report_without_packages_witness :
    incSourcesOnly.Packages = []
    ∧ mergeCoverageReports accPCM incSourcesOnly
        = { accPCM with Sources := [⟨"src"⟩, ⟨"lib"⟩] }
    ∧ Coverage.empty.Packages = [] ∧ Coverage.empty.Sources = []
    ∧ mergeCoverageReports accPCM Coverage.empty = accPCM :=
  ⟨rfl,
    (merge_report_without_packages accPCM incSourcesOnly rfl).1.trans (by decide),
    rfl, rfl, (merge_report_without_packages accPCM Coverage.empty rfl).2.1 rfl⟩

/-! ## The shape of the accumulator -/

theorem storeFirst_map_shape {α σ : Type} (p : α → Bool) (shape : α → σ) (v : α) :
    ∀ (l : List α) (e : α), l.find? p = some e → shape v = shape e →
      (storeFirst p v l).map shape = l.map shape := by
  intro l
  induction l with
  | nil => intro e h; simp at h
  | cons a as ih =>
    intro e hf hv
    by_cases hp : p a = true
    · have : a = e := by simpa [List.find?_cons, hp] using hf
      subst this
      simp [storeFirst, hp, hv]
    · have hf2 : as.find? p = some e := by simpa [List.find?_cons, hp] using hf
      simp [storeFirst, hp, ih e hf2 hv]

theorem keyedStep_foldl_shape {α κ σ : Type} [BEq κ] (key : α → κ) (cell : α → α → α)
    (shape : α → σ) (hcell : ∀ e x, shape (cell e x) = shape e) :
    ∀ (inc loc : List α),
      ∃ ext, (inc.foldl (keyedStep key cell) loc).map shape = loc.map shape ++ ext := by
  intro inc
  induction inc with
  | nil => intro loc; exact ⟨[], by simp⟩
  | cons x inc ih =>
    intro loc
    obtain ⟨e2, h2⟩ := ih (keyedStep key cell loc x)
    have h1 : ∃ e1, (keyedStep key cell loc x).map shape = loc.map shape ++ e1 := by
      unfold keyedStep
      cases hf : loc.find? (fun e => key e == key x) with
      | none => exact ⟨[shape x], by simp⟩
      | some e =>
        exact ⟨[], by
          simp only [List.append_nil]
          exact storeFirst_map_shape _ shape _ loc e hf (hcell e x)⟩
    obtain ⟨e1, h1⟩ := h1
    exact ⟨e1 ++ e2, by rw [List.foldl_cons, h2, h1, List.append_assoc]⟩

theorem sharedCells_shape {α σ : Type} (shape : α → σ) (l big : List α) (ext : List σ)
    (h : big.map shape = l.map shape ++ ext) :
    (sharedCells l big).map shape = l.map shape := by
  unfold sharedCells
  rw [List.map_take, h]
  exact List.take_left' (by simp)

theorem map_eraseHits_eq (lines : List Line) :
    lines.map Line.eraseHits = (lines.map Line.Number).map (fun n => (⟨n, 0⟩ : Line)) := by
  rw [List.map_map]
  rfl

theorem sharedCells_mergeLines_eraseHits (existing current : List Line) :
    (sharedCells existing (mergeLines existing current)).map Line.eraseHits
      = existing.map Line.eraseHits := by
  rw [map_eraseHits_eq, map_eraseHits_eq, sharedCells_mergeLines_numbers]

theorem methodCellAfter_eraseHits (M N : Method) :
    (methodCellAfter M N).eraseHits = M.eraseHits := by
  unfold methodCellAfter mergeMethodLines Method.eraseHits
  simp only
  rw [sharedCells_mergeLines_eraseHits]

theorem classCellAfter_eraseHits (C D : Class) :
    (classCellAfter C D).eraseHits = C.eraseHits := by
  rw [classCellAfter_eq]
  unfold Class.eraseHits
  simp only
  obtain ⟨ext, h⟩ := keyedStep_foldl_shape Method.Name methodCellAfter Method.eraseHits
    methodCellAfter_eraseHits D.Methods C.Methods
  rw [sharedCells_shape Method.eraseHits _ _ ext h, sharedCells_mergeLines_eraseHits]

theorem packageCellAfter_eraseHits (P Q : Package) :
    (packageCellAfter P Q).eraseHits = P.eraseHits := by
  rw [packageCellAfter_eq]
  unfold Package.eraseHits
  simp only
  obtain ⟨ext, h⟩ := keyedStep_foldl_shape Class.Name classCellAfter Class.eraseHits
    classCellAfter_eraseHits Q.Classes P.Classes
  rw [sharedCells_shape Class.eraseHits _ _ ext h]

/-- C20: for every accumulator and every incoming report, the packages the
accumulator had before the merge are, after it, at the same places and the
same apart from hit counts: the same names and metrics, the same list of
classes, in each class the same list of methods and the same class-level
line numbers, in each method the same line numbers.  Nothing is appended
below the package level; only hit counts of lines that existed can differ. -/
theorem merge_freezes_package_shape (acc inc : Coverage) :
    ((mergeCoverageReports acc inc).Packages.take acc.Packages.length).map Package.eraseHits
      = acc.Packages.map Package.eraseHits := by
  rw [mergeCoverageReports_packages]
  obtain ⟨ext, h⟩ := keyedStep_foldl_shape Package.Name packageCellAfter Package.eraseHits
    packageCellAfter_eraseHits inc.Packages acc.Packages
  exact sharedCells_shape Package.eraseHits _ _ ext h

/-! ## Unique keys after a merge -/

theorem method_uniqueKeys_eraseHits (M : Method) : M.eraseHits.UniqueKeys ↔ M.UniqueKeys := by
  unfold Method.UniqueKeys Method.eraseHits
  simp only [List.map_map]
  exact Iff.rfl

theorem class_uniqueKeys_eraseHits (C : Class) : C.eraseHits.UniqueKeys ↔ C.UniqueKeys := by
  unfold Class.UniqueKeys Class.eraseHits
  simp only [List.map_map, List.mem_map, forall_exists_index, and_imp,
    forall_apply_eq_imp_iff₂, method_uniqueKeys_eraseHits]
  exact Iff.rfl

theorem class_uniqueLines_eraseHits (C : Class) :
    (C.eraseHits.Lines.map Line.Number).Nodup ↔ (C.Lines.map Line.Number).Nodup := by
  unfold Class.eraseHits
  simp only [List.map_map]
  exact Iff.rfl

theorem package_uniqueKeys_eraseHits (P : Package) : P.eraseHits.UniqueKeys ↔ P.UniqueKeys := by
  unfold Package.UniqueKeys Package.eraseHits
  simp only [List.map_map, List.mem_map, forall_exists_index, and_imp,
    forall_apply_eq_imp_iff₂, class_uniqueKeys_eraseHits]
  exact Iff.rfl

theorem package_uniqueLines_eraseHits (P : Package) :
    (∀ C ∈ P.eraseHits.Classes, (C.Lines.map Line.Number).Nodup)
      ↔ ∀ C ∈ P.Classes, (C.Lines.map Line.Number).Nodup := by
  unfold Package.eraseHits
  simp only [List.mem_map, forall_exists_index, and_imp,
    forall_apply_eq_imp_iff₂, class_uniqueLines_eraseHits]

theorem mergedPackage_eraseHits (Qs : List Package) (P : Package) :
    (mergedCell Package.Name packageCellAfter Qs P).eraseHits = P.eraseHits := by
  unfold mergedCell
  cases Qs.find? (fun x => x.Name == P.Name) with
  | none => rfl
  | some Q => exact packageCellAfter_eraseHits P Q

/-- C18: when package names, class names within each package, method names
within each class and line numbers within each method and each class-level
line list are unique in the accumulator and in the incoming report, they are
unique in the accumulator after the merge. -/
theorem merge_keeps_unique_keys (acc inc : Coverage)
    (hacc : acc.UniqueKeys) (haccL : acc.UniqueClassLines)
    (hinc : inc.UniqueKeys) (hincL : inc.UniqueClassLines) :
    (mergeCoverageReports acc inc).UniqueKeys
    ∧ (mergeCoverageReports acc inc).UniqueClassLines := by
  have hpk := mergeCoverageReports_packages_unique acc inc hacc.1 hinc.1
  have hname : ∀ P : Package,
      (mergedCell Package.Name packageCellAfter inc.Packages P).Name = P.Name := by
    intro P
    have h := congrArg (fun Q : Package => Q.Name) (mergedPackage_eraseHits inc.Packages P)
    exact h
  refine ⟨⟨?_, ?_⟩, ?_⟩
  · rw [hpk, List.map_append, List.map_map, List.nodup_append]
    refine ⟨?_, ?_, ?_⟩
    · have : acc.Packages.map
          (Package.Name ∘ mergedCell Package.Name packageCellAfter inc.Packages)
          = acc.Packages.map Package.Name :=
        List.map_congr_left (fun P _ => hname P)
      rw [this]; exact hacc.1
    · exact List.Nodup.sublist (List.Sublist.map _ (List.filter_sublist _)) hinc.1
    · intro k hk1 hk2
      obtain ⟨P, hP, rfl⟩ := List.mem_map.mp hk1
      obtain ⟨Q, hQ, hQn⟩ := List.mem_map.mp hk2
      have hnot := (List.mem_filter.mp hQ).2
      simp only [decide_eq_true_eq] at hnot
      apply hnot
      rw [hQn]
      simp only [Function.comp, hname]
      exact List.mem_map_of_mem _ hP
  · intro P hP
    rw [hpk] at hP
    rcases List.mem_append.mp hP with h | h
    · obtain ⟨P0, hP0, rfl⟩ := List.mem_map.mp h
      rw [← package_uniqueKeys_eraseHits, mergedPackage_eraseHits,
        package_uniqueKeys_eraseHits]
      exact hacc.2 P0 hP0
    · exact hinc.2 P (List.mem_filter.mp h).1
  · intro P hP
    rw [hpk] at hP
    rcases List.mem_append.mp hP with h | h
    · obtain ⟨P0, hP0, rfl⟩ := List.mem_map.mp h
      rw [← package_uniqueLines_eraseHits, mergedPackage_eraseHits,
        package_uniqueLines_eraseHits]
      exact haccL P0 hP0
    · exact hincL P (List.mem_filter.mp h).1

/-- C18 at a concrete pair: `accPCM` and `incNewPackages` have unique keys at
every level, and so has the merged accumulator. -/
theorem merge_keeps_unique_keys_witness :
    accPCM.UniqueKeys ∧ accPCM.UniqueClassLines
    ∧ incNewPackages.UniqueKeys ∧ incNewPackages.UniqueClassLines
    ∧ (mergeCoverageReports accPCM incNewPackages).UniqueKeys
    ∧ (mergeCoverageReports accPCM incNewPackages).UniqueClassLines :=
  ⟨by decide, by decide, by decide, by decide,
    merge_keeps_unique_keys accPCM incNewPackages (by decide) (by decide) (by decide)
      (by decide)⟩

/-! ## A line list merged onto existing lines -/

theorem take_storeFirst {α : Type} (p : α → Bool) (v : α) :
    ∀ (l : List α) (n : Nat), (storeFirst p v l).take n = storeFirst p v (l.take n) := by
  intro l
  induction l with
  | nil => intro n; simp [storeFirst]
  | cons a as ih =>
    intro n
    cases n with
    | zero => simp [storeFirst]
    | succ n =>
      by_cases hp : p a = true
      · simp [storeFirst, hp]
      · simp [storeFirst, hp, ih n]

theorem storeFirst_no_match {α : Type} (p : α → Bool) (v : α) :
    ∀ l : List α, l.find? p = none → storeFirst p v l = l := by
  intro l
  induction l with
  | nil => intro _; rfl
  | cons a as ih =>
    intro h
    by_cases hp : p a = true
    · simp [List.find?_cons, hp] at h
    · have h2 : as.find? p = none := by simpa [List.find?_cons, hp] using h
      simp [storeFirst, hp, ih h2]

theorem keyedStep_take {α κ : Type} [BEq κ] [LawfulBEq κ] (key : α → κ)
    (cell : α → α → α) (loc : List α) (x : α) (n : Nat) (hn : n ≤ loc.length)
    (hnd : ((loc.take n).map key).Nodup) :
    (keyedStep key cell loc x).take n
      = (loc.take n).map (fun e => if key e == key x then cell e x else e) := by
  have hid : ∀ l : List α, l.find? (fun e => key e == key x) = none →
      l.map (fun e => if key e == key x then cell e x else e) = l := by
    intro l hl
    conv_rhs => rw [← List.map_id l]
    apply List.map_congr_left
    intro a ha
    have := List.find?_eq_none.mp hl a ha
    simp only [Bool.not_eq_true] at this
    simp [this]
  unfold keyedStep
  cases hf : loc.find? (fun e => key e == key x) with
  | none =>
    simp only
    rw [List.take_append_of_le_length hn]
    have hnone : (loc.take n).find? (fun e => key e == key x) = none := by
      rw [List.find?_eq_none]
      intro a ha
      exact List.find?_eq_none.mp hf a (List.mem_of_mem_take ha)
    exact (hid _ hnone).symm
  | some e =>
    simp only
    rw [take_storeFirst]
    cases hft : (loc.take n).find? (fun e => key e == key x) with
    | none => rw [storeFirst_no_match _ _ _ hft, hid _ hft]
    | some e1 =>
      have hsplit : loc.find? (fun e => key e == key x)
          = ((loc.take n).find? (fun e => key e == key x)).or
              ((loc.drop n).find? (fun e => key e == key x)) := by
        conv_lhs => rw [← List.take_append_drop n loc]
        exact List.find?_append
      rw [hf, hft] at hsplit
      have he : e = e1 := by simpa using hsplit
      subst he
      have hk : key e = key x := by simpa using List.find?_some hft
      exact storeFirst_eq_map key (key x) (fun a => cell a x) (loc.take n) e hnd
        (List.mem_of_find?_eq_some hft) hk

/-- The cells of the first `n` places after a keyed merge, when the keys of
those places are unique: each has taken in, in incoming order, every incoming
element of its key. -/
theorem keyedStep_foldl_take {α κ : Type} [BEq κ] [LawfulBEq κ] (key : α → κ)
    (cell : α → α → α) (hcell : ∀ e x, key (cell e x) = key e) (n : Nat) :
    ∀ (inc loc : List α), n ≤ loc.length → ((loc.take n).map key).Nodup →
      (inc.foldl (keyedStep key cell) loc).take n
        = (loc.take n).map (fun e => (inc.filter (fun x => key x == key e)).foldl cell e) := by
  intro inc
  induction inc with
  | nil => intro loc _ _; simp
  | cons x inc ih =>
    intro loc hn hnd
    have hstep := keyedStep_take key cell loc x n hn hnd
    have hlen : n ≤ (keyedStep key cell loc x).length := by
      have := congrArg List.length hstep
      simp only [List.length_take, List.length_map] at this
      omega
    have hkeys : ((keyedStep key cell loc x).take n).map key = (loc.take n).map key := by
      rw [hstep, List.map_map]
      apply List.map_congr_left
      intro a _
      simp only [Function.comp]
      split <;> simp [hcell]
    rw [List.foldl_cons, ih _ hlen (hkeys ▸ hnd), hstep, List.map_map]
    apply List.map_congr_left
    intro a _
    simp only [Function.comp]
    by_cases hka : key a = key x
    · have h1 : (key a == key x) = true := by simpa using hka
      have h2 : (key x == key a) = true := by simpa using hka.symm
      simp [h1, List.filter_cons, h2, hcell]
    · have h1 : (key a == key x) = false := by simpa using hka
      have h2 : (key x == key a) = false := by simpa using (Ne.symm hka)
      simp [h1, List.filter_cons, h2]

theorem foldl_addHits (xs : List Line) :
    ∀ l : Line, IsInt64 l.Hits →
      xs.foldl Line.addHits l
        = { l with Hits := wrapInt (l.Hits + (xs.map Line.Hits).sum) } := by
  induction xs with
  | nil => intro l hl; simp [wrapInt_of_isInt64 l.Hits hl]
  | cons x xs ih =>
    intro l _
    rw [List.foldl_cons, ih _ (wrapInt_isInt64 _)]
    simp only [Line.addHits, wrapInt_add_left, List.map_cons, List.sum_cons, add_assoc]

/-- With unique numbers among the existing lines, whose hits are Go ints, the
cells the caller keeps after a line merge are the existing lines, each with
the hits of all incoming entries of its number added in 64-bit arithmetic. -/
theorem sharedCells_mergeLines_plus (existing current : List Line)
    (hnd : (existing.map Line.Number).Nodup) (hR : LinesInRange existing) :
    sharedCells existing (mergeLines existing current)
      = existing.map (Line.plusHits current) := by
  unfold sharedCells
  rw [mergeLines_eq_keyed existing current hnd,
    keyedStep_foldl_take Line.Number Line.addHits (fun _ _ => rfl) existing.length current
      existing (Nat.le_refl _) (by rw [List.take_length]; exact hnd),
    List.take_length]
  apply List.map_congr_left
  intro l hl
  rw [foldl_addHits _ l (hR l hl)]
  rfl

theorem methodCellAfter_plus (M N : Method) (hM : M.UniqueKeys) (hR : LinesInRange M.Lines) :
    methodCellAfter M N = { M with Lines := M.Lines.map (Line.plusHits N.Lines) } := by
  unfold methodCellAfter mergeMethodLines
  simp only
  rw [sharedCells_mergeLines_plus M.Lines N.Lines hM hR]

/-! ## Looking a class or a method up after a merge -/

theorem find_map_keyed {α κ : Type} [BEq κ] (key : α → κ) (f : α → α)
    (hf : ∀ e, key (f e) = key e) (k : κ) (l : List α) :
    (l.map f).find? (fun a => key a == k) = (l.find? (fun a => key a == k)).map f := by
  rw [List.find?_map]
  have : ((fun a => key a == k) ∘ f) = (fun a => key a == k) := by
    funext a
    simp only [Function.comp, hf]
  rw [this]

theorem mergedCell_found {α κ : Type} [BEq κ] [LawfulBEq κ] (key : α → κ)
    (cell : α → α → α) (inc : List α) (e x : α) (k : κ) (he : key e = k)
    (hx : inc.find? (fun a => key a == k) = some x) :
    mergedCell key cell inc e = cell e x := by
  unfold mergedCell
  rw [he, hx]

theorem mergedCell_key {α κ : Type} [BEq κ] (key : α → κ) (cell : α → α → α)
    (hcell : ∀ e x, key (cell e x) = key e) (inc : List α) (e : α) :
    key (mergedCell key cell inc e) = key e := by
  unfold mergedCell
  cases inc.find? (fun x => key x == key e) with
  | none => rfl
  | some x => exact hcell e x

theorem find_name_eq {α : Type} (key : α → String) (k : String) (l : List α) (e : α)
    (h : l.find? (fun a => key a == k) = some e) : key e = k := by
  simpa using List.find?_some h

/-- The class `p / c` after a merge, when both reports have it and names are
unique in both: the cell of the accumulator's class after the incoming class
has been merged onto it. -/
theorem merge_lookupClass (acc inc : Coverage) (hacc : acc.UniqueNames)
    (hinc : inc.UniqueNames) (p c : String) (C D : Class)
    (hC : acc.lookupClass p c = some C) (hD : inc.lookupClass p c = some D) :
    (mergeCoverageReports acc inc).lookupClass p c = some (classCellAfter C D)
    ∧ C.UniqueNames ∧ D.UniqueNames ∧ C.Name = c ∧ D.Name = c := by
  unfold Coverage.lookupClass at hC hD
  obtain ⟨P, hP, hPC⟩ := Option.bind_eq_some.mp hC
  obtain ⟨Q, hQ, hQD⟩ := Option.bind_eq_some.mp hD
  have hPm := List.mem_of_find?_eq_some hP
  have hQm := List.mem_of_find?_eq_some hQ
  have hPn : P.Name = p := find_name_eq Package.Name p _ P hP
  have hCn : C.Name = c := find_name_eq Class.Name c _ C hPC
  have hDn : D.Name = c := find_name_eq Class.Name c _ D hQD
  have hPu := hacc.2 P hPm
  have hQu := hinc.2 Q hQm
  refine ⟨?_, hPu.2 C (List.mem_of_find?_eq_some hPC),
    hQu.2 D (List.mem_of_find?_eq_some hQD), hCn, hDn⟩
  unfold Coverage.lookupClass
  rw [mergeCoverageReports_packages_unique acc inc hacc.1 hinc.1, List.find?_append,
    find_map_keyed Package.Name _
      (mergedCell_key Package.Name packageCellAfter (fun _ _ => rfl) inc.Packages) p,
    hP]
  simp only [Option.map_some']
  rw [mergedCell_found Package.Name packageCellAfter inc.Packages P Q p hPn hQ]
  simp only [Option.or, Option.some_bind]
  rw [packageCellAfter_classes P Q hPu.1 hQu.1,
    find_map_keyed Class.Name _
      (mergedCell_key Class.Name classCellAfter
        (fun C0 D0 => by rw [classCellAfter_eq]) Q.Classes) c,
    hPC]
  simp only [Option.map_some']
  rw [mergedCell_found Class.Name classCellAfter Q.Classes C D c hCn hQD]

/-- The method `p / c / m` after a merge, when both reports have it, names are
unique in both and the accumulator's method has unique line numbers and Go
ints as hit counts: the accumulator's method, each of its lines with the hits
of all incoming entries of its number added in 64-bit arithmetic. -/
theorem merge_lookupMethod (acc inc : Coverage) (hacc : acc.UniqueNames)
    (hinc : inc.UniqueNames) (p c m : String) (M N : Method)
    (hM : acc.lookupMethod p c m = some M) (hN : inc.lookupMethod p c m = some N)
    (hL : M.UniqueKeys) (hR : LinesInRange M.Lines) :
    (mergeCoverageReports acc inc).lookupMethod p c m
      = some { M with Lines := M.Lines.map (Line.plusHits N.Lines) } := by
  unfold Coverage.lookupMethod at hM hN
  obtain ⟨C, hC, hCM⟩ := Option.bind_eq_some.mp hM
  obtain ⟨D, hD, hDN⟩ := Option.bind_eq_some.mp hN
  obtain ⟨hres, hCu, hDu, _, _⟩ := merge_lookupClass acc inc hacc hinc p c C D hC hD
  have hMn : M.Name = m := find_name_eq Method.Name m _ M hCM
  unfold Coverage.lookupMethod
  rw [hres]
  simp only [Option.some_bind]
  rw [classCellAfter_methods C D hCu hDu,
    find_map_keyed Method.Name _
      (mergedCell_key Method.Name methodCellAfter (fun _ _ => rfl) D.Methods) m,
    hCM]
  simp only [Option.map_some']
  rw [mergedCell_found Method.Name methodCellAfter D.Methods M N m hMn hDN,
    methodCellAfter_plus M N hL hR]

/-! ## The line merge without the line map -/

theorem lastIdx_append_singleton (a k : Int) :
    ∀ l : List Int, lastIdx (l ++ [a]) k = if a = k then some l.length else lastIdx l k := by
  intro l
  induction l with
  | nil => simp [lastIdx]
  | cons b rest ih =>
    rw [List.cons_append]
    simp only [lastIdx]
    rw [ih]
    by_cases h : a = k
    · rw [if_pos h, if_pos h]
      rfl
    · rw [if_neg h, if_neg h]

theorem lastIdx_none_iff (k : Int) : ∀ l : List Int, lastIdx l k = none ↔ k ∉ l := by
  intro l
  induction l with
  | nil => simp [lastIdx]
  | cons a rest ih =>
    simp only [lastIdx, List.mem_cons, not_or]
    cases h : lastIdx rest k with
    | some i =>
      have : ¬ (k ∉ rest) := by
        intro hn; rw [ih.mpr hn] at h; cases h
      simp [this]
    | none =>
      have hn := ih.mp h
      by_cases hak : a = k
      · simp [hak]
      · simp [hak, hn, Ne.symm hak]

theorem indexLines_upto_lastIdx (lines : List Line) :
    ∀ n, n ≤ lines.length → ∀ k,
      (List.range n).foldl
        (fun (lineMap : LineMap) i =>
          match lines[i]? with
          | some line => lineMap.set line.Number i
          | none => lineMap)
        LineMap.empty k
      = lastIdx ((lines.map Line.Number).take n) k := by
  intro n
  induction n with
  | zero => intro _ k; simp [LineMap.empty, lastIdx]
  | succ n ih =>
    intro hn k
    have hlt : n < lines.length := hn
    have hget : lines[n]? = some lines[n] := List.getElem?_eq_getElem hlt
    have htake : (lines.map Line.Number).take (n + 1)
        = (lines.map Line.Number).take n ++ [lines[n].Number] := by
      rw [List.take_succ, List.getElem?_map, hget]
      rfl
    have hlen : ((lines.map Line.Number).take n).length = n := by
      rw [List.length_take, List.length_map]
      exact Nat.min_eq_left (Nat.le_of_lt hlt)
    rw [List.range_succ, List.foldl_append, List.foldl_cons, List.foldl_nil, hget, htake,
      lastIdx_append_singleton, hlen]
    simp only [LineMap.set]
    rw [ih (Nat.le_of_lt hlt) k]
    by_cases h : k = lines[n].Number
    · simp [h]
    · simp [h, Ne.symm h]

theorem indexLines_eq_lastIdx (lines : List Line) (k : Int) :
    indexLines lines k = lastIdx (lines.map Line.Number) k := by
  unfold indexLines
  rw [indexLines_upto_lastIdx lines lines.length (Nat.le_refl _) k]
  congr 1
  exact List.take_of_length_le (by simp)

theorem addAtLast_numbers (x : Line) :
    ∀ lines : List Line, (addAtLast x lines).map Line.Number = lines.map Line.Number := by
  intro lines
  induction lines with
  | nil => rfl
  | cons l rest ih =>
    simp only [addAtLast]
    split
    · simp [ih]
    · split
      · simp [Line.addHits]
      · rfl

theorem addHitsAt_eq_addAtLast (x : Line) :
    ∀ (lines : List Line) (i : Nat), lastIdx (lines.map Line.Number) x.Number = some i →
      addHitsAt lines i x.Hits = addAtLast x lines := by
  intro lines
  induction lines with
  | nil => intro i h; simp [lastIdx] at h
  | cons l rest ih =>
    intro i h
    simp only [List.map_cons, lastIdx] at h
    simp only [addAtLast]
    cases hr : lastIdx (rest.map Line.Number) x.Number with
    | some j =>
      rw [hr] at h
      have hmem : x.Number ∈ rest.map Line.Number := by
        by_contra hn
        rw [(lastIdx_none_iff _ _).mpr hn] at hr
        cases hr
      have hi : i = j + 1 := by simpa using h.symm
      subst hi
      rw [if_pos hmem, ← ih j hr]
      simp [addHitsAt]
    | none =>
      rw [hr] at h
      have hmem : x.Number ∉ rest.map Line.Number := (lastIdx_none_iff _ _).mp hr
      rw [if_neg hmem]
      by_cases hl : l.Number = x.Number
      · have hi : i = 0 := by simpa [hl] using h.symm
        subst hi
        simp [hl, addHitsAt, Line.addHits]
      · simp [hl] at h

theorem mergeLineStep_atLast (lines : List Line) (lineMap : LineMap) (x : Line)
    (hmap : ∀ k, lineMap k = lastIdx (lines.map Line.Number) k) :
    (mergeLineStep (lines, lineMap) x).1 = mergeLineAtLast lines x
    ∧ ∀ k, (mergeLineStep (lines, lineMap) x).2 k
        = lastIdx ((mergeLineAtLast lines x).map Line.Number) k := by
  unfold mergeLineAtLast
  cases hm : lineMap x.Number with
  | none =>
    have hres : mergeLineStep (lines, lineMap) x
        = (lines ++ [x], lineMap.set x.Number lines.length) := by
      simp only [mergeLineStep, hm]
    have hnot : x.Number ∉ lines.map Line.Number := by
      apply (lastIdx_none_iff _ _).mp
      rw [← hmap, hm]
    rw [hres, if_neg hnot]
    refine ⟨rfl, ?_⟩
    intro k
    show LineMap.set lineMap x.Number lines.length k = _
    simp only [LineMap.set, List.map_append, List.map_cons, List.map_nil]
    rw [lastIdx_append_singleton, List.length_map, hmap k]
    by_cases h : k = x.Number
    · simp [h]
    · simp [h, Ne.symm h]
  | some i =>
    have hres : mergeLineStep (lines, lineMap) x = (addHitsAt lines i x.Hits, lineMap) := by
      simp only [mergeLineStep, hm]
    have hlast : lastIdx (lines.map Line.Number) x.Number = some i := by
      rw [← hmap, hm]
    have hmem : x.Number ∈ lines.map Line.Number := by
      by_contra hn
      rw [(lastIdx_none_iff _ _).mpr hn] at hlast
      cases hlast
    rw [hres, if_pos hmem]
    refine ⟨addHitsAt_eq_addAtLast x lines i hlast, ?_⟩
    intro k
    show lineMap k = _
    rw [addAtLast_numbers, hmap k]

theorem mergeLineStep_foldl_atLast (inc : List Line) :
    ∀ (lines : List Line) (lineMap : LineMap),
      (∀ k, lineMap k = lastIdx (lines.map Line.Number) k) →
      (inc.foldl mergeLineStep (lines, lineMap)).1 = inc.foldl mergeLineAtLast lines := by
  induction inc with
  | nil => intro lines lineMap _; rfl
  | cons x inc ih =>
    intro lines lineMap hmap
    obtain ⟨h1, h2⟩ := mergeLineStep_atLast lines lineMap x hmap
    rw [List.foldl_cons, List.foldl_cons, ← h1]
    exact ih (mergeLineStep (lines, lineMap) x).1 (mergeLineStep (lines, lineMap) x).2
      (fun k => by rw [h2 k, h1])

/-- The line merge, for any two line lists: every incoming entry adds its hits
to the last existing line of its number, or is appended when there is none. -/
theorem mergeLines_eq_atLast (existing current : List Line) :
    mergeLines existing current = current.foldl mergeLineAtLast existing := by
  unfold mergeLines
  exact mergeLineStep_foldl_atLast current existing _ (indexLines_eq_lastIdx existing)

theorem addAtLast_absent (x : Line) :
    ∀ lines : List Line, x.Number ∉ lines.map Line.Number → addAtLast x lines = lines := by
  intro lines
  induction lines with
  | nil => intro _; rfl
  | cons l rest ih =>
    intro h
    simp only [List.map_cons, List.mem_cons, not_or] at h
    simp only [addAtLast]
    rw [if_neg h.2, if_neg (fun e => h.1 e.symm)]

theorem addAtLast_append (x : Line) (b : List Line) :
    ∀ a : List Line,
      addAtLast x (a ++ b)
        = if x.Number ∈ b.map Line.Number then a ++ addAtLast x b else addAtLast x a ++ b := by
  intro a
  induction a with
  | nil =>
    by_cases hb : x.Number ∈ b.map Line.Number
    · simp [hb]
    · simp [hb, addAtLast, addAtLast_absent x b hb]
  | cons l rest ih =>
    rw [List.cons_append]
    simp only [addAtLast, List.map_append, List.mem_append]
    by_cases hb : x.Number ∈ b.map Line.Number
    · simp only [hb, or_true, if_true, ih, List.cons_append]
    · simp only [hb, or_false, if_false, ih]
      by_cases hr : x.Number ∈ rest.map Line.Number
      · simp only [hr, if_true, List.cons_append]
      · simp only [hr, if_false]
        split <;> rfl

theorem mergeLineAtLast_foldl_take (inc : List Line) :
    ∀ a b : List Line, (∀ n ∈ b.map Line.Number, n ∉ a.map Line.Number) →
      (inc.foldl mergeLineAtLast (a ++ b)).take a.length = mergedOnto inc a := by
  induction inc with
  | nil => intro a b _; simp [mergedOnto]
  | cons x inc ih =>
    intro a b hdis
    have hlen : (addAtLast x a).length = a.length := by
      have := congrArg List.length (addAtLast_numbers x a)
      simpa using this
    have hstep : ∃ b', mergeLineAtLast (a ++ b) x = addAtLast x a ++ b'
        ∧ ∀ n ∈ b'.map Line.Number, n ∉ (addAtLast x a).map Line.Number := by
      unfold mergeLineAtLast
      rw [addAtLast_numbers]
      by_cases hb : x.Number ∈ b.map Line.Number
      · have ha : x.Number ∉ a.map Line.Number := hdis _ hb
        refine ⟨addAtLast x b, ?_, ?_⟩
        · rw [if_pos (by simp [hb]), addAtLast_append, if_pos hb, addAtLast_absent x a ha]
        · rw [addAtLast_numbers]; exact hdis
      · by_cases ha : x.Number ∈ a.map Line.Number
        · refine ⟨b, ?_, hdis⟩
          rw [if_pos (by simp [ha]), addAtLast_append, if_neg hb]
        · refine ⟨b ++ [x], ?_, ?_⟩
          · rw [if_neg (by simp [ha, hb]), addAtLast_absent x a ha, List.append_assoc]
          · intro n hn
            rw [List.map_append, List.mem_append] at hn
            rcases hn with h | h
            · exact hdis n h
            · have : n = x.Number := by simpa using h
              rw [this]; exact ha
    obtain ⟨b', h1, h2⟩ := hstep
    rw [List.foldl_cons, h1, ← hlen, ih _ b' h2]
    rfl

/-- The cells the caller keeps after a line merge, for any two line lists:
the existing lines with every incoming entry added, in turn, to the last line
of its number. -/
theorem sharedCells_mergeLines_onto (existing current : List Line) :
    sharedCells existing (mergeLines existing current) = mergedOnto current existing := by
  unfold sharedCells
  rw [mergeLines_eq_atLast]
  have := mergeLineAtLast_foldl_take current existing [] (by intro n h; cases h)
  rw [List.append_nil] at this
  exact this

theorem mergedOnto_unique (existing current : List Line)
    (hnd : (existing.map Line.Number).Nodup) (hR : LinesInRange existing) :
    mergedOnto current existing = existing.map (Line.plusHits current) := by
  rw [← sharedCells_mergeLines_onto, sharedCells_mergeLines_plus existing current hnd hR]

theorem methodCellAfter_onto (M N : Method) :
    methodCellAfter M N = { M with Lines := mergedOnto N.Lines M.Lines } := by
  unfold methodCellAfter mergeMethodLines
  simp only
  rw [sharedCells_mergeLines_onto]

theorem methodCellAfter_foldl (Ns : List Method) :
    ∀ M : Method, Ns.foldl methodCellAfter M
      = { M with Lines := mergedOnto (Ns.flatMap (fun N => N.Lines)) M.Lines } := by
  induction Ns with
  | nil => intro M; rfl
  | cons N Ns ih =>
    intro M
    rw [List.foldl_cons, ih, methodCellAfter_onto]
    simp only [List.flatMap_cons, mergedOnto, List.foldl_append]

/-! ## The first element of a key through a keyed merge -/

theorem storeFirst_length {α : Type} (p : α → Bool) (v : α) :
    ∀ l : List α, (storeFirst p v l).length = l.length := by
  intro l
  induction l with
  | nil => rfl
  | cons a as ih =>
    by_cases hp : p a = true
    · simp [storeFirst, hp]
    · simp [storeFirst, hp, ih]

theorem find_storeFirst_same {α : Type} (p : α → Bool) (v : α) (hv : p v = true) :
    ∀ (l : List α) (e : α), l.find? p = some e → (storeFirst p v l).find? p = some v := by
  intro l
  induction l with
  | nil => intro e h; simp at h
  | cons a as ih =>
    intro e h
    by_cases hp : p a = true
    · simp [storeFirst, hp, List.find?_cons, hv]
    · have h2 : as.find? p = some e := by simpa [List.find?_cons, hp] using h
      simp [storeFirst, hp, List.find?_cons, ih e h2]

theorem find_storeFirst_other {α : Type} (p q : α → Bool) (v : α)
    (hq : ∀ a, q a = true → p a = false) (hv : p v = false) :
    ∀ l : List α, (storeFirst q v l).find? p = l.find? p := by
  intro l
  induction l with
  | nil => rfl
  | cons a as ih =>
    by_cases hqa : q a = true
    · simp [storeFirst, hqa, List.find?_cons, hv, hq a hqa]
    · simp [storeFirst, hqa, List.find?_cons, ih]

theorem find_of_find_take {α : Type} (p : α → Bool) (l : List α) (n : Nat) (e : α)
    (h : (l.take n).find? p = some e) : l.find? p = some e := by
  conv_lhs => rw [← List.take_append_drop n l]
  rw [List.find?_append, h]
  rfl

theorem keyedStep_length_le {α κ : Type} [BEq κ] (key : α → κ) (cell : α → α → α)
    (loc : List α) (x : α) : loc.length ≤ (keyedStep key cell loc x).length := by
  unfold keyedStep
  cases loc.find? (fun e => key e == key x) with
  | none => simp
  | some e => simp [storeFirst_length]

/-- The first element of key `k` among the first `n` places, after a keyed
merge: it has taken in, in incoming order, every incoming element of key
`k`.  Nothing is asked of the keys. -/
theorem keyedStep_foldl_find {α κ : Type} [BEq κ] [LawfulBEq κ] (key : α → κ)
    (cell : α → α → α) (hcell : ∀ e x, key (cell e x) = key e) (k : κ) (n : Nat) :
    ∀ (inc loc : List α) (e : α), n ≤ loc.length →
      (loc.take n).find? (fun a => key a == k) = some e →
      ((inc.foldl (keyedStep key cell) loc).take n).find? (fun a => key a == k)
        = some ((inc.filter (fun x => key x == k)).foldl cell e) := by
  intro inc
  induction inc with
  | nil => intro loc e _ h; simpa using h
  | cons x inc ih =>
    intro loc e hn hfind
    have hlen : n ≤ (keyedStep key cell loc x).length :=
      Nat.le_trans hn (keyedStep_length_le key cell loc x)
    have hwhole := find_of_find_take _ loc n e hfind
    have hek : key e = k := by simpa using List.find?_some hfind
    rw [List.foldl_cons]
    by_cases hx : key x = k
    · have hpred : (fun a => key a == key x) = (fun a => key a == k) := by rw [hx]
      have hstep : keyedStep key cell loc x
          = storeFirst (fun a => key a == k) (cell e x) loc := by
        unfold keyedStep
        rw [hpred, hwhole]
      have hnew : ((keyedStep key cell loc x).take n).find? (fun a => key a == k)
          = some (cell e x) := by
        rw [hstep, take_storeFirst]
        exact find_storeFirst_same _ _ (by simp [hcell, hek]) _ e hfind
      rw [ih _ (cell e x) hlen hnew]
      have hb : (key x == k) = true := by simpa using hx
      simp [List.filter_cons, hb]
    · have hb : (key x == k) = false := by simpa using hx
      have hnew : ((keyedStep key cell loc x).take n).find? (fun a => key a == k)
          = some e := by
        unfold keyedStep
        cases hf : loc.find? (fun a => key a == key x) with
        | none =>
          simp only
          rw [List.take_append_of_le_length hn]
          exact hfind
        | some e0 =>
          simp only
          rw [take_storeFirst, find_storeFirst_other]
          · exact hfind
          · intro a ha
            have : key a = key x := by simpa using ha
            simpa [this] using hx
          · have : key (cell e0 x) = key x := by
              rw [hcell]; simpa using List.find?_some hf
            simpa [this] using hx
      rw [ih _ e hlen hnew]
      simp [List.filter_cons, hb]

theorem sharedCells_find {α κ : Type} [BEq κ] [LawfulBEq κ] (key : α → κ)
    (cell : α → α → α) (hcell : ∀ e x, key (cell e x) = key e) (k : κ)
    (inc loc : List α) (e : α) (h : loc.find? (fun a => key a == k) = some e) :
    (sharedCells loc (inc.foldl (keyedStep key cell) loc)).find? (fun a => key a == k)
      = some ((inc.filter (fun x => key x == k)).foldl cell e) := by
  unfold sharedCells
  exact keyedStep_foldl_find key cell hcell k loc.length inc loc e (Nat.le_refl _)
    (by rw [List.take_length]; exact h)

theorem classCellAfter_foldl_find (m : String) (Ds : List Class) :
    ∀ (C : Class) (M : Method), C.Methods.find? (fun X => X.Name == m) = some M →
      (Ds.foldl classCellAfter C).Methods.find? (fun X => X.Name == m)
        = some ((Ds.flatMap (fun D => D.Methods.filter (fun X => X.Name == m))).foldl
            methodCellAfter M) := by
  induction Ds with
  | nil => intro C M h; simpa using h
  | cons D Ds ih =>
    intro C M h
    have h1 : (classCellAfter C D).Methods.find? (fun X => X.Name == m)
        = some ((D.Methods.filter (fun X => X.Name == m)).foldl methodCellAfter M) := by
      rw [classCellAfter_eq]
      exact sharedCells_find Method.Name methodCellAfter (fun _ _ => rfl) m D.Methods
        C.Methods M h
    rw [List.foldl_cons, ih _ _ h1, List.flatMap_cons, List.foldl_append]

theorem packageCellAfter_foldl_find (c : String) (Qs : List Package) :
    ∀ (P : Package) (C : Class), P.Classes.find? (fun X => X.Name == c) = some C →
      (Qs.foldl packageCellAfter P).Classes.find? (fun X => X.Name == c)
        = some ((Qs.flatMap (fun Q => Q.Classes.filter (fun X => X.Name == c))).foldl
            classCellAfter C) := by
  induction Qs with
  | nil => intro P C h; simpa using h
  | cons Q Qs ih =>
    intro P C h
    have h1 : (packageCellAfter P Q).Classes.find? (fun X => X.Name == c)
        = some ((Q.Classes.filter (fun X => X.Name == c)).foldl classCellAfter C) := by
      rw [packageCellAfter_eq]
      exact sharedCells_find Class.Name classCellAfter
        (fun C0 D0 => by rw [classCellAfter_eq]) c Q.Classes P.Classes C h
    rw [List.foldl_cons, ih _ _ h1, List.flatMap_cons, List.foldl_append]

theorem mergeCoverageReports_find (acc inc : Coverage) (p : String) (P : Package)
    (h : acc.Packages.find? (fun X => X.Name == p) = some P) :
    (mergeCoverageReports acc inc).Packages.find? (fun X => X.Name == p)
      = some ((inc.Packages.filter (fun X => X.Name == p)).foldl packageCellAfter P) := by
  rw [mergeCoverageReports_packages]
  apply find_of_find_take _ _ acc.Packages.length
  exact keyedStep_foldl_find Package.Name packageCellAfter (fun _ _ => rfl) p
    acc.Packages.length inc.Packages acc.Packages P (Nat.le_refl _)
    (by rw [List.take_length]; exact h)

theorem classCellAfter_foldl_eraseHits (Ds : List Class) :
    ∀ C : Class, (Ds.foldl classCellAfter C).eraseHits = C.eraseHits := by
  induction Ds with
  | nil => intro C; rfl
  | cons D Ds ih => intro C; rw [List.foldl_cons, ih, classCellAfter_eraseHits]

/-- The class `p / c` after a merge, for any two reports: the accumulator's
class after every incoming class named `c` of a package named `p` has been
merged onto it, in document order. -/
theorem merge_lookupClass_all (acc inc : Coverage) (p c : String) (C : Class)
    (hC : acc.lookupClass p c = some C) :
    (mergeCoverageReports acc inc).lookupClass p c
      = some ((inc.classesAt p c).foldl classCellAfter C) := by
  unfold Coverage.lookupClass at hC
  obtain ⟨P, hP, hPC⟩ := Option.bind_eq_some.mp hC
  unfold Coverage.lookupClass Coverage.classesAt
  rw [mergeCoverageReports_find acc inc p P hP]
  simp only [Option.some_bind]
  exact packageCellAfter_foldl_find c _ P C hPC

/-- The method `p / c / m` after a merge, for any two reports: the
accumulator's method with all incoming line entries of the name `p / c / m`
added onto its lines. -/
theorem merge_lookupMethod_all (acc inc : Coverage) (p c m : String) (M : Method)
    (hM : acc.lookupMethod p c m = some M) :
    (mergeCoverageReports acc inc).lookupMethod p c m
      = some { M with Lines := mergedOnto (inc.linesAt p c m) M.Lines } := by
  unfold Coverage.lookupMethod at hM
  obtain ⟨C, hC, hCM⟩ := Option.bind_eq_some.mp hM
  unfold Coverage.lookupMethod Coverage.linesAt Coverage.methodsAt
  rw [merge_lookupClass_all acc inc p c C hC]
  simp only [Option.some_bind]
  rw [classCellAfter_foldl_find m _ C M hCM, methodCellAfter_foldl]

theorem mergedOnto_numbers (incoming : List Line) :
    ∀ existing : List Line,
      (mergedOnto incoming existing).map Line.Number = existing.map Line.Number := by
  induction incoming with
  | nil => intro existing; rfl
  | cons x xs ih =>
    intro existing
    show (mergedOnto xs (addAtLast x existing)).map Line.Number = _
    rw [ih, addAtLast_numbers]

theorem filter_eq_singleton {α : Type} (key : α → String) (k : String) :
    ∀ (l : List α) (x : α), (l.map key).Nodup → l.find? (fun a => key a == k) = some x →
      l.filter (fun a => key a == k) = [x] := by
  intro l
  induction l with
  | nil => intro x _ h; simp at h
  | cons a as ih =>
    intro x hnd h
    rw [List.map_cons, List.nodup_cons] at hnd
    by_cases ha : key a = k
    · have hb : (key a == k) = true := by simpa using ha
      have hx : a = x := by simpa [List.find?_cons, hb] using h
      have hnone : as.filter (fun a => key a == k) = [] := by
        rw [List.filter_eq_nil_iff]
        intro b hb2 hbk
        have : key b = k := by simpa using hbk
        exact hnd.1 (ha ▸ this ▸ List.mem_map_of_mem key hb2)
      subst hx
      simp [List.filter_cons, hb, hnone]
    · have hb : (key a == k) = false := by simpa using ha
      have h2 : as.find? (fun a => key a == k) = some x := by
        simpa [List.find?_cons, hb] using h
      simp [List.filter_cons, hb, ih x hnd.2 h2]

theorem linesAt_unique (inc : Coverage) (hinc : inc.UniqueNames) (p c m : String)
    (N : Method) (hN : inc.lookupMethod p c m = some N) :
    inc.linesAt p c m = N.Lines := by
  unfold Coverage.lookupMethod Coverage.lookupClass at hN
  obtain ⟨D, hD, hDN⟩ := Option.bind_eq_some.mp hN
  obtain ⟨Q, hQ, hQD⟩ := Option.bind_eq_some.mp hD
  have hQu := hinc.2 Q (List.mem_of_find?_eq_some hQ)
  have hDu := hQu.2 D (List.mem_of_find?_eq_some hQD)
  unfold Coverage.linesAt Coverage.methodsAt Coverage.classesAt
  rw [filter_eq_singleton Package.Name p inc.Packages Q hinc.1 hQ]
  simp only [List.flatMap_cons, List.flatMap_nil, List.append_nil]
  rw [filter_eq_singleton Class.Name c Q.Classes D hQu.1 hQD]
  simp only [List.flatMap_cons, List.flatMap_nil, List.append_nil]
  rw [filter_eq_singleton Method.Name m D.Methods N hDu hDN]
  simp only [List.flatMap_cons, List.flatMap_nil, List.append_nil]

/-- C17: methods are matched by name alone.  For any two reports, when class
`p / c` of the accumulator has a method named `m` (the first of that name,
as `findMethodByName` finds it), then after the merge class `p / c` has the
methods it had, by name and signature and in the same order (none is added,
whatever the signatures of the incoming methods named `m` are), and its
method `m` is the accumulator's method, signature included, with the same
line numbers, onto whose lines every incoming line entry of the name
`p / c / m` has been added, each to the last line of its number.  Where the
method's line numbers are unique and its hits Go ints, each of its lines
holds its hits plus the incoming hits of its number (64-bit addition); where
names are unique in the incoming report, the incoming entries are the lines
of its one method `p / c / m`. -/
theorem merge_matches_methods_by_name (acc inc : Coverage) (p c m : String) (C : Class)
    (M : Method) (hC : acc.lookupClass p c = some C)
    (hM : acc.lookupMethod p c m = some M) :
    (∃ C', (mergeCoverageReports acc inc).lookupClass p c = some C'
      ∧ C'.Methods.map (fun X => (X.Name, X.Signature))
          = C.Methods.map (fun X => (X.Name, X.Signature)))
    ∧ (mergeCoverageReports acc inc).lookupMethod p c m
        = some { M with Lines := mergedOnto (inc.linesAt p c m) M.Lines }
    ∧ (mergedOnto (inc.linesAt p c m) M.Lines).map Line.Number = M.Lines.map Line.Number
    ∧ (M.UniqueKeys → LinesInRange M.Lines →
        mergedOnto (inc.linesAt p c m) M.Lines
          = M.Lines.map (Line.plusHits (inc.linesAt p c m)))
    ∧ (∀ N, inc.UniqueNames → inc.lookupMethod p c m = some N →
        inc.linesAt p c m = N.Lines) := by
  refine ⟨⟨_, merge_lookupClass_all acc inc p c C hC, ?_⟩,
    merge_lookupMethod_all acc inc p c m M hM, mergedOnto_numbers _ _,
    fun hL hR => mergedOnto_unique M.Lines _ hL hR,
    fun N hinc hN => linesAt_unique inc hinc p c m N hN⟩
  have h := congrArg (fun X : Class => X.Methods.map (fun Y => (Y.Name, Y.Signature)))
    (classCellAfter_foldl_eraseHits (inc.classesAt p c) C)
  simp only [Class.eraseHits, List.map_map] at h
  exact h

/-- C17 at concrete reports.  `accOverloads` and `incOverloads` both have two
methods named `m` in class `p / C`, with the signatures `(I)V` and `(S)V`:
after the merge the class has the same two methods, and the first holds line
1 with 1 + 10 + 12 = 23 hits.  `accPCM` has one `m` with the empty signature
and `incOverload` one `m` with the signature `(I)V` and the lines (1, 2),
(1, 3), (9, 1): after the merge `m` has the empty signature and line 1 with
6 hits. -/
theorem merge_matches_methods_by_name_witness :
    accOverloads.lookupClass "p" "C" = some classOverloads
    ∧ accOverloads.lookupMethod "p" "C" "m" = some methodIV
    ∧ (∃ C', (mergeCoverageReports accOverloads incOverloads).lookupClass "p" "C" = some C'
        ∧ C'.Methods.map (fun X => (X.Name, X.Signature))
            = [("m", "(I)V"), ("m", "(S)V")])
    ∧ (mergeCoverageReports accOverloads incOverloads).lookupMethod "p" "C" "m"
        = some { methodIV with Lines := [⟨1, 23⟩] }
    ∧ mergedOnto (incOverloads.linesAt "p" "C" "m") methodIV.Lines
        = methodIV.Lines.map (Line.plusHits (incOverloads.linesAt "p" "C" "m"))
    ∧ accPCM.lookupClass "p" "C" = some classC
    ∧ accPCM.lookupMethod "p" "C" "m" = some methodM
    ∧ methodMOverload.Signature ≠ methodM.Signature
    ∧ incOverload.linesAt "p" "C" "m" = methodMOverload.Lines
    ∧ (mergeCoverageReports accPCM incOverload).lookupMethod "p" "C" "m"
        = some (mkMethod "m" [⟨1, 6⟩]) :=
  ⟨by decide, by decide,
    (merge_matches_methods_by_name accOverloads incOverloads "p" "C" "m" classOverloads
      methodIV (by decide) (by decide)).1,
    (merge_matches_methods_by_name accOverloads incOverloads "p" "C" "m" classOverloads
      methodIV (by decide) (by decide)).2.1.trans (by decide),
    (merge_matches_methods_by_name accOverloads incOverloads "p" "C" "m" classOverloads
      methodIV (by decide) (by decide)).2.2.2.1 (by decide) (by decide),
    by decide, by decide, by decide,
    (merge_matches_methods_by_name accPCM incOverload "p" "C" "m" classC methodM
      (by decide) (by decide)).2.2.2.2 methodMOverload (by decide) (by decide),
    (merge_matches_methods_by_name accPCM incOverload "p" "C" "m" classC methodM
      (by decide) (by decide)).2.1.trans (by decide)⟩

/-- C19, as the code has it: repeated line numbers in one incoming line list
go onto a single line.  With names unique in both reports, when the
accumulator's method `p / c / m` has unique line numbers and Go ints as hit
counts, and the incoming report has a method `p / c / m`, whose line list may
repeat numbers, then after the merge the accumulator's method has at most one
line of each number, and each line it had holds its old hits plus the sum of
the hits of all incoming entries of its number, wrapped into the 64-bit
range; it is the plain sum whenever that sum is a Go int. -/
theorem merge_accumulates_repeated_lines (acc inc : Coverage) (hacc : acc.UniqueNames)
    (hinc : inc.UniqueNames) (p c m : String) (M N : Method)
    (hM : acc.lookupMethod p c m = some M) (hN : inc.lookupMethod p c m = some N)
    (hL : M.UniqueKeys) (hR : LinesInRange M.Lines) :
    ∃ M', (mergeCoverageReports acc inc).lookupMethod p c m = some M'
      ∧ (∀ n, (M'.Lines.filter (fun l => l.Number == n)).length ≤ 1)
      ∧ M'.Lines.map Line.Number = M.Lines.map Line.Number
      ∧ ∀ l ∈ M.Lines, ∃ l' ∈ M'.Lines,
          l'.Number = l.Number
          ∧ l'.Hits = wrapInt (l.Hits + hitsSum N.Lines l.Number)
          ∧ (IsInt64 (l.Hits + hitsSum N.Lines l.Number) →
              l'.Hits = l.Hits + hitsSum N.Lines l.Number) := by
  refine ⟨_, merge_lookupMethod acc inc hacc hinc p c m M N hM hN hL hR, ?_, ?_, ?_⟩
  · have hnum : (M.Lines.map (Line.plusHits N.Lines)).map Line.Number
        = M.Lines.map Line.Number := by
      rw [List.map_map]; rfl
    have hnd : ((M.Lines.map (Line.plusHits N.Lines)).map Line.Number).Nodup := by
      rw [hnum]; exact hL
    intro n
    show ((M.Lines.map (Line.plusHits N.Lines)).filter (fun l => l.Number == n)).length ≤ 1
    generalize M.Lines.map (Line.plusHits N.Lines) = ls at hnd
    induction ls with
    | nil => simp
    | cons a as ih =>
      rw [List.map_cons, List.nodup_cons] at hnd
      by_cases ha : a.Number = n
      · have hnone : as.filter (fun l => l.Number == n) = [] := by
          rw [List.filter_eq_nil_iff]
          intro b hb hbn
          have : b.Number = n := by simpa using hbn
          exact hnd.1 (ha ▸ this ▸ List.mem_map_of_mem Line.Number hb)
        simp [List.filter_cons, ha, hnone]
      · simpa [List.filter_cons, ha] using ih hnd.2
  · show (M.Lines.map (Line.plusHits N.Lines)).map Line.Number = M.Lines.map Line.Number
    rw [List.map_map]; rfl
  · intro l hl
    refine ⟨Line.plusHits N.Lines l, List.mem_map_of_mem _ hl, rfl, rfl, ?_⟩
    intro h
    show wrapInt (l.Hits + hitsSum N.Lines l.Number) = _
    exact wrapInt_of_isInt64 _ h

/-- C19 at a concrete pair: the incoming method of `incOverload` carries line
1 twice, with 2 and 3 hits; merged onto line (1, hits 1) of `accPCM` they
give the single line (1, hits 6). -/
theorem merge_accumulates_repeated_lines_witness :
    accPCM.UniqueNames ∧ incOverload.UniqueNames
    ∧ accPCM.lookupMethod "p" "C" "m" = some methodM
    ∧ incOverload.lookupMethod "p" "C" "m" = some methodMOverload
    ∧ methodM.UniqueKeys ∧ LinesInRange methodM.Lines
    ∧ hitsSum methodMOverload.Lines 1 = 5
    ∧ (mergeCoverageReports accPCM incOverload).lookupMethod "p" "C" "m"
        = some (mkMethod "m" [⟨1, 6⟩])
    ∧ ∃ M', (mergeCoverageReports accPCM incOverload).lookupMethod "p" "C" "m" = some M'
        ∧ (∀ n, (M'.Lines.filter (fun l => l.Number == n)).length ≤ 1)
        ∧ M'.Lines.map Line.Number = methodM.Lines.map Line.Number
        ∧ ∀ l ∈ methodM.Lines, ∃ l' ∈ M'.Lines,
            l'.Number = l.Number
            ∧ l'.Hits = wrapInt (l.Hits + hitsSum methodMOverload.Lines l.Number)
            ∧ (IsInt64 (l.Hits + hitsSum methodMOverload.Lines l.Number) →
                l'.Hits = l.Hits + hitsSum methodMOverload.Lines l.Number) :=
  ⟨by decide, by decide, by decide, by decide, by decide, by decide, by decide, by decide,
    merge_accumulates_repeated_lines accPCM incOverload (by decide) (by decide) "p" "C" "m"
      methodM methodMOverload (by decide) (by decide) (by decide) (by decide)⟩

/-- C19 at the edge of the range: line `p / C / m / 1` of `accMaxHits` holds
9223372036854775807 hits and `incTwoHits` carries the line twice, one hit
each; after the merge the line holds -9223372036854775807 hits, not the old
hits plus the incoming sum, 9223372036854775809. -/
theorem repeated_lines_sum_overflows :
    accMaxHits.UniqueNames ∧ incTwoHits.UniqueNames
    ∧ methodLines accMaxHits = [("p", "C", "m", [⟨1, 9223372036854775807⟩])]
    ∧ hitsSum (incTwoHits.linesAt "p" "C" "m") 1 = 2
    ∧ methodLines (mergeCoverageReports accMaxHits incTwoHits)
        = [("p", "C", "m", [⟨1, -9223372036854775807⟩])]
    ∧ (-9223372036854775807 : Int) ≠ 9223372036854775807 + 2 := by
  decide

end CoberturaMerge
